import Mathlib

/-!
Verification of the parsell incremental parser-combinator engine
(src/impls.rs).  The combinators `Character`, `AnyCharacter`, `Emit`,
`Discard`, `Map`, `Opt`, `OrElse`, `AndThen`, `Star`, `Plus` and
`Buffered` are embedded as a deep syntax over streams of characters
(`List Char`); parser outputs are an untyped value type `Val` (the Rust
code is polymorphic in the output; `Cow` outputs compare by content, so
`Val.str` carries the content).  The functions `init`, `more`, `done`
and `empty` mirror the Rust methods `Uncommitted::init`,
`Stateful::more`, `Stateful::done` and `Committed::empty` line by line;
streams are threaded explicitly (Rust mutates `&mut Str` in place).
The `Star`/`Plus` driving loop in `StarState::more` can diverge when the
inner parser succeeds without consuming input; the model detects exactly
that situation (a `Done` with no consumption from an identical restart
state, which repeats forever since the functions are deterministic) and
returns the explicit marker `Res.div`.
-/

namespace Parsell

/-- An input fragment / stream of tokens; tokens are characters. -/
abbrev Str := List Char

/-- Untyped parser output values.  `str` is the content of a `Cow` output
of `Buffered` (`Cow`'s equality compares content); `vlist` serves as a
concrete accumulator for `Star`/`Plus` witnesses. -/
inductive Val : Type where
  | char : Char → Val
  | vopt : Option Val → Val
  | pair : Val → Val → Val
  | unit : Val
  | str : List Char → Val
  | vlist : List Val → Val

/-- Deep syntax of the parser combinators of `impls.rs`.  `star`/`plus`
carry the user `Factory` (its pure `build()` result `z`) and the user
`Consumer` (`a acc item` is `acc.accept(item)`); `emit` carries the
factory's `build()` result; `map` carries the user function. -/
inductive Parser : Type where
  | character (f : Char → Bool)
  | anyCharacter
  | emit (v : Val)
  | discard (p : Parser)
  | map (f : Val → Val) (p : Parser)
  | opt (p : Parser)
  | orElse (p q : Parser)
  | andThen (p q : Parser)
  | star (p : Parser) (z : Val) (a : Val → Val → Val)
  | plus (p : Parser) (z : Val) (a : Val → Val → Val)
  | buffered (p : Parser)

/-- Mid-parse continuations: the `State` types of `impls.rs`.
`anyState` is `AnyCharacter` as its own state, `emitState` is `Emit` as
its own state, `inLhs`/`inBetween`/`inRhs` are `AndThenState`,
`orLhs`/`orRhs` are `OrElseState`, `starState` is `StarState` and
`bufState` is `BufferedState` (its buffer kept as the character list
content of the Rust `String`).  `CharacterState` is uninhabited in the
source and so has no constructor here. -/
inductive PState : Type where
  | anyState
  | emitState (v : Val)
  | discardState (s : PState)
  | mapState (f : Val → Val) (s : PState)
  | optState (s : PState)
  | orLhs (s : PState)
  | orRhs (s : PState)
  | inLhs (s : PState) (q : Parser)
  | inBetween (v : Val) (q : Parser)
  | inRhs (v : Val) (s : PState)
  | starState (p : Parser) (inner : Option PState) (acc : Val) (a : Val → Val → Val)
  | bufState (s : PState) (buf : List Char)

/-- The type `ParseResult` extended with an explicit divergence marker for the
`Star` loop (see the module comment). -/
inductive Res : Type where
  | div
  | done (v : Val)
  | cont (s : PState)

/-- Size of a parser, used for termination of the semantics. -/
def psize : Parser → Nat
  | .character _ => 1
  | .anyCharacter => 1
  | .emit _ => 1
  | .discard p => psize p + 1
  | .map _ p => psize p + 1
  | .opt p => psize p + 1
  | .orElse p q => psize p + psize q + 1
  | .andThen p q => psize p + psize q + 1
  | .star p _ _ => 2 * psize p + 3
  | .plus p _ _ => 2 * psize p + 3
  | .buffered p => psize p + 1

mutual

/-- Size of a state, used for termination of the semantics. -/
def ssize : PState → Nat
  | .anyState => 1
  | .emitState _ => 1
  | .discardState s => ssize s + 1
  | .mapState _ s => ssize s + 1
  | .optState s => ssize s + 1
  | .orLhs s => ssize s + 1
  | .orRhs s => ssize s + 1
  | .inLhs s q => ssize s + psize q + 1
  | .inBetween _ q => psize q + 1
  | .inRhs _ s => ssize s + 1
  | .starState p inner _ _ => psize p + isize inner + 1
  | .bufState s _ => ssize s + 1

/-- Size of an optional inner state of the `Star` loop. -/
def isize : Option PState → Nat
  | none => 1
  | some s => ssize s + 1

end

theorem ssize_pos (st : PState) : 1 ≤ ssize st := by
  cases st <;> simp [ssize] <;> omega

mutual

/-- Model of `Uncommitted::init`: feed a stream to a parser; `none` is a decline.
The returned stream is the state of the Rust `&mut Str` after the call. -/
def init : Parser → Str → Option Res × Str
  | .character f, s =>
    match s with
    | [] => (none, [])
    | c :: cs => if f c then (some (.done (.char c)), cs) else (none, c :: cs)
  | .anyCharacter, s =>
    match s with
    | [] => (none, [])
    | c :: cs => (some (.done (.vopt (some (.char c)))), cs)
  | .emit v, s => if s.isEmpty then (none, s) else (some (.done v), s)
  | .discard p, s =>
    match init p s with
    | (none, r) => (none, r)
    | (some (.done _), r) => (some (.done .unit), r)
    | (some (.cont st), r) => (some (.cont (.discardState st)), r)
    | (some .div, r) => (some .div, r)
  | .map f p, s =>
    match init p s with
    | (none, r) => (none, r)
    | (some (.done v), r) => (some (.done (f v)), r)
    | (some (.cont st), r) => (some (.cont (.mapState f st)), r)
    | (some .div, r) => (some .div, r)
  | .opt p, s =>
    match init p s with
    | (none, r) => if r.isEmpty then (none, r) else (some (.done (.vopt none)), r)
    | (some (.done v), r) => (some (.done (.vopt (some v))), r)
    | (some (.cont st), r) => (some (.cont (.optState st)), r)
    | (some .div, r) => (some .div, r)
  | .orElse p q, s =>
    match init p s with
    | (some (.done v), r) => (some (.done v), r)
    | (some (.cont st), r) => (some (.cont (.orLhs st)), r)
    | (some .div, r) => (some .div, r)
    | (none, r) =>
      match init q r with
      | (some (.done v), r2) => (some (.done v), r2)
      | (some (.cont st), r2) => (some (.cont (.orRhs st)), r2)
      | (some .div, r2) => (some .div, r2)
      | (none, r2) => (none, r2)
  | .andThen p q, s =>
    match init p s with
    | (none, r) => (none, r)
    | (some .div, r) => (some .div, r)
    | (some (.cont st), r) => (some (.cont (.inLhs st q)), r)
    | (some (.done v), r) =>
      match init q r with
      | (none, r2) => (some (.cont (.inBetween v q)), r2)
      | (some (.done w), r2) => (some (.done (.pair v w)), r2)
      | (some (.cont st), r2) => (some (.cont (.inRhs v st)), r2)
      | (some .div, r2) => (some .div, r2)
  | .star p z a, s =>
    if s.isEmpty then (none, s)
    else
      match starLoop p none z a s with
      | (r2, t2) => (some r2, t2)
  | .plus p z a, s =>
    match init p s with
    | (none, r) => (none, r)
    | (some (.cont st), r) => (some (.cont (.starState p (some st) z a)), r)
    | (some (.done v), r) =>
      match starLoop p none (a z v) a r with
      | (r2, t2) => (some r2, t2)
    | (some .div, r) => (some .div, r)
  | .buffered p, s =>
    match init p s with
    | (none, r) => (none, r)
    | (some (.done _), r) => (some (.done (.str (s.take (s.length - r.length)))), r)
    | (some (.cont st), r) => (some (.cont (.bufState st s)), r)
    | (some .div, r) => (some .div, r)
termination_by p s => (psize p, s.length)
decreasing_by
  all_goals subst_vars
  all_goals (try simp [psize, ssize, isize])
  all_goals first
    | (apply Prod.Lex.left; first | omega | exact Nat.add_lt_add_left (Nat.lt_succ_of_le (ssize_pos _)) _)
    | (apply Prod.Lex.right; omega)

/-- Model of `Stateful::more`: resume a suspended state on a further fragment. -/
def more : PState → Str → Res × Str
  | .anyState, s =>
    match s with
    | [] => (.cont .anyState, [])
    | c :: cs => (.done (.vopt (some (.char c))), cs)
  | .emitState v, s => (.done v, s)
  | .discardState st, s =>
    match more st s with
    | (.done _, r) => (.done .unit, r)
    | (.cont st2, r) => (.cont (.discardState st2), r)
    | (.div, r) => (.div, r)
  | .mapState f st, s =>
    match more st s with
    | (.done v, r) => (.done (f v), r)
    | (.cont st2, r) => (.cont (.mapState f st2), r)
    | (.div, r) => (.div, r)
  | .optState st, s =>
    match more st s with
    | (.done v, r) => (.done (.vopt (some v)), r)
    | (.cont st2, r) => (.cont (.optState st2), r)
    | (.div, r) => (.div, r)
  | .orLhs st, s =>
    match more st s with
    | (.done v, r) => (.done v, r)
    | (.cont st2, r) => (.cont (.orLhs st2), r)
    | (.div, r) => (.div, r)
  | .orRhs st, s =>
    match more st s with
    | (.done v, r) => (.done v, r)
    | (.cont st2, r) => (.cont (.orRhs st2), r)
    | (.div, r) => (.div, r)
  | .inLhs st q, s =>
    match more st s with
    | (.done v, r) =>
      match init q r with
      | (none, r2) => (.cont (.inBetween v q), r2)
      | (some (.done w), r2) => (.done (.pair v w), r2)
      | (some (.cont st2), r2) => (.cont (.inRhs v st2), r2)
      | (some .div, r2) => (.div, r2)
    | (.cont st2, r) => (.cont (.inLhs st2 q), r)
    | (.div, r) => (.div, r)
  | .inBetween v q, s =>
    match init q s with
    | (none, r) => (.cont (.inBetween v q), r)
    | (some (.done w), r) => (.done (.pair v w), r)
    | (some (.cont st), r) => (.cont (.inRhs v st), r)
    | (some .div, r) => (.div, r)
  | .inRhs v st, s =>
    match more st s with
    | (.done w, r) => (.done (.pair v w), r)
    | (.cont st2, r) => (.cont (.inRhs v st2), r)
    | (.div, r) => (.div, r)
  | .starState p inner acc a, s => starLoop p inner acc a s
  | .bufState st buf, s =>
    match more st s with
    | (.done _, r) => (.done (.str (buf ++ s.take (s.length - r.length))), r)
    | (.cont st2, r) => (.cont (.bufState st2 (buf ++ s)), r)
    | (.div, r) => (.div, r)
termination_by st s => (ssize st, s.length)
decreasing_by
  all_goals subst_vars
  all_goals (try simp [psize, ssize, isize])
  all_goals first
    | (apply Prod.Lex.left; first | omega | exact Nat.add_lt_add_left (Nat.lt_succ_of_le (ssize_pos _)) _)
    | (apply Prod.Lex.right; omega)

/-- The driving loop of `StarState::more`: repeatedly run one inner
occurrence, folding results into the accumulator within the current
fragment; on an inner suspension suspend; on an inner decline suspend if
the stream is empty, else finish with the accumulator.  An inner `Done`
that consumed nothing restarts the loop from an identical configuration
and hence loops forever in Rust; the model returns `Res.div` there. -/
def starLoop : Parser → Option PState → Val → (Val → Val → Val) → Str → Res × Str
  | p, some st, acc, a, s =>
    match more st s with
    | (.cont st2, r) => (.cont (.starState p (some st2) acc a), r)
    | (.done v, r) => starLoop p none (a acc v) a r
    | (.div, r) => (.div, r)
  | p, none, acc, a, s =>
    match init p s with
    | (some (.cont st), r) => (.cont (.starState p (some st) acc a), r)
    | (some (.done v), r) =>
      if h2 : r.length < s.length then starLoop p none (a acc v) a r
      else (.div, r)
    | (some .div, r) => (.div, r)
    | (none, r) => if r.isEmpty then (.cont (.starState p none acc a), r) else (.done acc, r)
termination_by p inner acc a s => (psize p + isize inner, s.length)
decreasing_by
  all_goals subst_vars
  all_goals (try simp [psize, ssize, isize])
  all_goals first
    | (apply Prod.Lex.left; first | omega | exact Nat.add_lt_add_left (Nat.lt_succ_of_le (ssize_pos _)) _)
    | (apply Prod.Lex.right; omega)

end

/-- Unfolding equation for the `Star` loop on a held inner state. -/
theorem starLoop_some_eq (p : Parser) (st : PState) (acc : Val) (a : Val → Val → Val) (s : Str) :
    starLoop p (some st) acc a s =
      match more st s with
      | (.cont st2, r) => (.cont (.starState p (some st2) acc a), r)
      | (.done v, r) => starLoop p none (a acc v) a r
      | (.div, r) => (.div, r) := by
  rw [starLoop]

/-- Unfolding equation for the `Star` loop with no held inner state. -/
theorem starLoop_none_eq (p : Parser) (acc : Val) (a : Val → Val → Val) (s : Str) :
    starLoop p none acc a s =
      match init p s with
      | (some (.cont st), r) => (.cont (.starState p (some st) acc a), r)
      | (some (.done v), r) =>
        if _ : r.length < s.length then starLoop p none (a acc v) a r
        else (.div, r)
      | (some .div, r) => (.div, r)
      | (none, r) =>
        if r.isEmpty then (.cont (.starState p none acc a), r) else (.done acc, r) := by
  rw [starLoop]


/-- Which parsers implement `Committed` (have `empty`).  `Character` and
`Plus` implement only `Uncommitted`; `AndThen` is `Committed` when both
sides are; `OrElse` when its fallback is; `Map`, `Discard`, `Buffered`
delegate to the inner parser; `Opt`, `Star`, `Emit`, `AnyCharacter`
always are. -/
def hasEmpty : Parser → Bool
  | .character _ => false
  | .anyCharacter => true
  | .emit _ => true
  | .discard p => hasEmpty p
  | .map _ p => hasEmpty p
  | .opt _ => true
  | .orElse _ q => hasEmpty q
  | .andThen p q => hasEmpty p && hasEmpty q
  | .star _ _ _ => true
  | .plus _ _ _ => false
  | .buffered p => hasEmpty p

/-- The trait bounds required to drive a parser as `Uncommitted`:
`AndThen(p, q)` requires `q: Committed` (the Rust impl is
`P: Uncommitted, Q: Committed`); everything else delegates. -/
def wf : Parser → Bool
  | .character _ => true
  | .anyCharacter => true
  | .emit _ => true
  | .discard p => wf p
  | .map _ p => wf p
  | .opt p => wf p
  | .orElse p q => wf p && wf q
  | .andThen p q => wf p && wf q && hasEmpty q
  | .star p _ _ => wf p
  | .plus p _ _ => wf p
  | .buffered p => wf p

/-- Well-formed states: the states produced by `init`/`more` of a
well-formed parser.  `inLhs`/`inBetween` hold a committed `q` (the
`AndThen` bound). -/
def wfS : PState → Bool
  | .anyState => true
  | .emitState _ => false
  | .discardState s => wfS s
  | .mapState _ s => wfS s
  | .optState s => wfS s
  | .orLhs s => wfS s
  | .orRhs s => wfS s
  | .inLhs s q => wfS s && wf q && hasEmpty q
  | .inBetween _ q => wf q && hasEmpty q
  | .inRhs _ s => wfS s
  | .starState p inner _ _ => wf p && (match inner with | none => true | some s => wfS s)
  | .bufState s _ => wfS s

/-- Model of `Committed::empty`: the pure answer on conclusively empty input.
On parsers that do not implement `Committed` (`hasEmpty` is false) the
value is junk (`Val.unit`) and is never used. -/
def empty : Parser → Val
  | .character _ => .unit
  | .anyCharacter => .vopt none
  | .emit v => v
  | .discard _ => .unit
  | .map f p => f (empty p)
  | .opt _ => .vopt none
  | .orElse _ q => empty q
  | .andThen p q => .pair (empty p) (empty q)
  | .star _ z _ => z
  | .plus _ _ _ => .unit
  | .buffered _ => .str []

/-- Model of `Stateful::done`: finish a suspended state when no further input will
arrive. -/
def done : PState → Val
  | .anyState => .vopt none
  | .emitState v => v
  | .discardState _ => .unit
  | .mapState f s => f (done s)
  | .optState s => .vopt (some (done s))
  | .orLhs s => done s
  | .orRhs s => done s
  | .inLhs s q => .pair (done s) (empty q)
  | .inBetween v q => .pair v (empty q)
  | .inRhs v s => .pair v (done s)
  | .starState _ _ acc _ => acc
  | .bufState _ buf => .str buf

/-- Overall outcome of a complete drive of a parser over a fragment
list. -/
inductive DOut : Type where
  | declined
  | diverged
  | out (v : Val)

/-- Run the remaining fragments against an obtained `ParseResult`,
resuming once per fragment and calling `done` at end of input. -/
def finishRun : Res → List Str → DOut
  | .div, _ => .diverged
  | .done v, _ => .out v
  | .cont st, [] => .out (done st)
  | .cont st, f :: fs => finishRun (more st f).1 fs

/-- A complete drive of an `Uncommitted` parser: `begin` (= `init`) on
the first fragment, then `resume` (= `more`) once per fragment, then
`finish` (= `done`) at end of input. -/
def drive (p : Parser) (frags : List Str) : DOut :=
  match init p (frags.headD []) with
  | (none, _) => .declined
  | (some r, _) => finishRun r frags.tail

/-- A complete drive of a `Committed` parser: as `drive`, but a decline
is answered by `onEmpty` (= `empty`). -/
def driveC (p : Parser) (frags : List Str) : DOut :=
  match drive p frags with
  | .declined => .out (empty p)
  | o => o

/-- Invariant (ii) of the data model: a decline (`init` returning `None`)
leaves the stream's position untouched. -/
theorem init_decline_eq (p : Parser) :
    ∀ s r, init p s = (none, r) → r = s := by
  induction p with
  | character f =>
    intro s r h
    match s with
    | [] => simpa [init] using congrArg Prod.snd h
    | c :: cs =>
      by_cases hf : f c <;> simp [init, hf] at h <;> simp [h]
  | anyCharacter =>
    intro s r h
    match s with
    | [] => simpa [init] using congrArg Prod.snd h
    | c :: cs => simp [init] at h
  | emit v =>
    intro s r h
    by_cases hs : s.isEmpty <;> simp [init, hs] at h <;> simp [h]
  | discard p ih =>
    intro s r h
    rcases h1 : init p s with ⟨o, r1⟩
    cases o with
    | none => simp [init, h1] at h; exact ih s r (h ▸ h1)
    | some res => cases res <;> simp [init, h1] at h
  | map f p ih =>
    intro s r h
    rcases h1 : init p s with ⟨o, r1⟩
    cases o with
    | none => simp [init, h1] at h; exact ih s r (h ▸ h1)
    | some res => cases res <;> simp [init, h1] at h
  | opt p ih =>
    intro s r h
    rcases h1 : init p s with ⟨o, r1⟩
    cases o with
    | none =>
      by_cases he : r1.isEmpty <;> simp [init, h1, he] at h
      exact ih s r (h ▸ h1)
    | some res => cases res <;> simp [init, h1] at h
  | orElse p q ihp ihq =>
    intro s r h
    rcases h1 : init p s with ⟨o, r1⟩
    cases o with
    | none =>
      have hr1 : r1 = s := ihp s r1 h1
      rcases h2 : init q r1 with ⟨o2, r2⟩
      cases o2 with
      | none =>
        simp [init, h1, h2] at h
        exact (h ▸ ihq r1 r2 h2).trans hr1
      | some res => cases res <;> simp [init, h1, h2] at h
    | some res => cases res <;> simp [init, h1] at h
  | andThen p q ihp ihq =>
    intro s r h
    rcases h1 : init p s with ⟨o, r1⟩
    cases o with
    | none => simp [init, h1] at h; exact ihp s r (h ▸ h1)
    | some res =>
      cases res with
      | done v =>
        rcases h2 : init q r1 with ⟨o2, r2⟩
        cases o2 with
        | none => simp [init, h1, h2] at h
        | some res2 => cases res2 <;> simp [init, h1, h2] at h
      | div => simp [init, h1] at h
      | cont st => simp [init, h1] at h
  | star p z a ih =>
    intro s r h
    by_cases hs : s.isEmpty
    · simp [init, hs] at h; simp [h]
    · rcases h2 : starLoop p none z a s with ⟨r2, t2⟩
      simp [init, hs, h2] at h
  | plus p z a ih =>
    intro s r h
    rcases h1 : init p s with ⟨o, r1⟩
    cases o with
    | none => simp [init, h1] at h; exact ih s r (h ▸ h1)
    | some res =>
      cases res with
      | done v =>
        rcases h2 : starLoop p none (a z v) a r1 with ⟨r2, t2⟩
        simp [init, h1, h2] at h
      | div => simp [init, h1] at h
      | cont st => simp [init, h1] at h
  | buffered p ih =>
    intro s r h
    rcases h1 : init p s with ⟨o, r1⟩
    cases o with
    | none => simp [init, h1] at h; exact ih s r (h ▸ h1)
    | some res => cases res <;> simp [init, h1] at h

/-- On the empty stream every parser of the algebra declines: a decline
at a fragment boundary means "cannot tell yet", which the enclosing
machinery (`AndThen`, `Star`, the committed drive) resolves. -/
theorem init_nil (p : Parser) : init p [] = (none, []) := by
  induction p with
  | character f => simp [init]
  | anyCharacter => simp [init]
  | emit v => simp [init]
  | discard p ih => simp [init, ih]
  | map f p ih => simp [init, ih]
  | opt p ih => simp [init, ih]
  | orElse p q ihp ihq => simp [init, ihp, ihq]
  | andThen p q ihp ihq => simp [init, ihp]
  | star p z a ih => simp [init]
  | plus p z a ih => simp [init, ih]
  | buffered p ih => simp [init, ih]

/-- A `Committed` parser declines only on an empty stream: on nonempty
input it always answers (`Done` or `Continue`). -/
theorem committed_decline_nil (p : Parser) :
    ∀ s r, hasEmpty p = true → init p s = (none, r) → s = [] := by
  induction p with
  | character f => intro s r hc h; simp [hasEmpty] at hc
  | anyCharacter =>
    intro s r hc h
    match s with
    | [] => rfl
    | c :: cs => simp [init] at h
  | emit v =>
    intro s r hc h
    by_cases hs : s.isEmpty
    · simpa using hs
    · simp [init, hs] at h
  | discard p ih =>
    intro s r hc h
    rcases h1 : init p s with ⟨o, r1⟩
    cases o with
    | none => exact ih s r1 (by simpa [hasEmpty] using hc) h1
    | some res => cases res <;> simp [init, h1] at h
  | map f p ih =>
    intro s r hc h
    rcases h1 : init p s with ⟨o, r1⟩
    cases o with
    | none => exact ih s r1 (by simpa [hasEmpty] using hc) h1
    | some res => cases res <;> simp [init, h1] at h
  | opt p ih =>
    intro s r hc h
    rcases h1 : init p s with ⟨o, r1⟩
    cases o with
    | none =>
      have hr1 : r1 = s := init_decline_eq p s r1 h1
      by_cases he : r1.isEmpty <;> simp [init, h1, he] at h
      subst hr1; simpa using he
    | some res => cases res <;> simp [init, h1] at h
  | orElse p q ihp ihq =>
    intro s r hc h
    rcases h1 : init p s with ⟨o, r1⟩
    cases o with
    | none =>
      have hr1 : r1 = s := init_decline_eq p s r1 h1
      rcases h2 : init q r1 with ⟨o2, r2⟩
      cases o2 with
      | none =>
        have : r1 = [] := ihq r1 r2 (by simpa [hasEmpty] using hc) h2
        exact hr1 ▸ this
      | some res => cases res <;> simp [init, h1, h2] at h
    | some res => cases res <;> simp [init, h1] at h
  | andThen p q ihp ihq =>
    intro s r hc h
    rcases h1 : init p s with ⟨o, r1⟩
    cases o with
    | none =>
      simp [hasEmpty] at hc
      exact ihp s r1 hc.1 h1
    | some res =>
      cases res with
      | done v =>
        rcases h2 : init q r1 with ⟨o2, r2⟩
        cases o2 with
        | none => simp [init, h1, h2] at h
        | some res2 => cases res2 <;> simp [init, h1, h2] at h
      | div => simp [init, h1] at h
      | cont st => simp [init, h1] at h
  | star p z a ih =>
    intro s r hc h
    by_cases hs : s.isEmpty
    · simpa using hs
    · rcases h2 : starLoop p none z a s with ⟨r2, t2⟩
      simp [init, hs, h2] at h
  | plus p z a ih => intro s r hc h; simp [hasEmpty] at hc
  | buffered p ih =>
    intro s r hc h
    rcases h1 : init p s with ⟨o, r1⟩
    cases o with
    | none => exact ih s r1 (by simpa [hasEmpty] using hc) h1
    | some res => cases res <;> simp [init, h1] at h


mutual

/-- The function `init` only consumes: the remaining stream is no longer than the
input stream. -/
theorem init_len (p : Parser) (s : Str) : (init p s).2.length ≤ s.length := by
  cases p with
  | character f =>
    match s with
    | [] => simp [init]
    | c :: cs => by_cases hf : f c <;> simp [init, hf]
  | anyCharacter =>
    match s with
    | [] => simp [init]
    | c :: cs => simp [init]
  | emit v => by_cases hs : s.isEmpty <;> simp [init, hs]
  | discard p =>
    have h1 := init_len p s
    rcases h : init p s with ⟨o, r⟩
    rw [h] at h1; simp at h1
    cases o with
    | none => simp [init, h]; omega
    | some res => cases res <;> simp [init, h] <;> omega
  | map f p =>
    have h1 := init_len p s
    rcases h : init p s with ⟨o, r⟩
    rw [h] at h1; simp at h1
    cases o with
    | none => simp [init, h]; omega
    | some res => cases res <;> simp [init, h] <;> omega
  | opt p =>
    have h1 := init_len p s
    rcases h : init p s with ⟨o, r⟩
    rw [h] at h1; simp at h1
    cases o with
    | none => by_cases he : r.isEmpty <;> simp [init, h, he] <;> omega
    | some res => cases res <;> simp [init, h] <;> omega
  | orElse p q =>
    have h1 := init_len p s
    rcases h : init p s with ⟨o, r⟩
    rw [h] at h1; simp at h1
    cases o with
    | none =>
      have h2 := init_len q r
      rcases hq : init q r with ⟨o2, r2⟩
      rw [hq] at h2; simp at h2
      cases o2 with
      | none => simp [init, h, hq]; omega
      | some res => cases res <;> simp [init, h, hq] <;> omega
    | some res => cases res <;> simp [init, h] <;> omega
  | andThen p q =>
    have h1 := init_len p s
    rcases h : init p s with ⟨o, r⟩
    rw [h] at h1; simp at h1
    cases o with
    | none => simp [init, h]; omega
    | some res =>
      cases res with
      | done v =>
        have h2 := init_len q r
        rcases hq : init q r with ⟨o2, r2⟩
        rw [hq] at h2; simp at h2
        cases o2 with
        | none => simp [init, h, hq]; omega
        | some res2 => cases res2 <;> simp [init, h, hq] <;> omega
      | div => simp [init, h]; omega
      | cont st => simp [init, h]; omega
  | star p z a =>
    by_cases hs : s.isEmpty
    · simp [init, hs]
    · have h1 := starLoop_len p none z a s
      rcases h : starLoop p none z a s with ⟨r2, t2⟩
      rw [h] at h1; simp at h1
      simp [init, hs, h]; omega
  | plus p z a =>
    have h1 := init_len p s
    rcases h : init p s with ⟨o, r⟩
    rw [h] at h1; simp at h1
    cases o with
    | none => simp [init, h]; omega
    | some res =>
      cases res with
      | done v =>
        have h2 := starLoop_len p none (a z v) a r
        rcases hq : starLoop p none (a z v) a r with ⟨r2, t2⟩
        rw [hq] at h2; simp at h2
        simp [init, h, hq]; omega
      | div => simp [init, h]; omega
      | cont st => simp [init, h]; omega
  | buffered p =>
    have h1 := init_len p s
    rcases h : init p s with ⟨o, r⟩
    rw [h] at h1; simp at h1
    cases o with
    | none => simp [init, h]; omega
    | some res => cases res <;> simp [init, h] <;> omega
termination_by (psize p, s.length)
decreasing_by
  all_goals subst_vars
  all_goals (try simp [psize, ssize, isize])
  all_goals first
    | (apply Prod.Lex.left; first | omega | exact Nat.add_lt_add_left (Nat.lt_succ_of_le (ssize_pos _)) _)
    | (apply Prod.Lex.right; omega)

/-- The function `more` only consumes. -/
theorem more_len (st : PState) (s : Str) : (more st s).2.length ≤ s.length := by
  cases st with
  | anyState =>
    match s with
    | [] => simp [more]
    | c :: cs => simp [more]
  | emitState v => simp [more]
  | discardState st =>
    have h1 := more_len st s
    rcases h : more st s with ⟨o, r⟩
    rw [h] at h1; simp at h1
    cases o <;> simp [more, h] <;> omega
  | mapState f st =>
    have h1 := more_len st s
    rcases h : more st s with ⟨o, r⟩
    rw [h] at h1; simp at h1
    cases o <;> simp [more, h] <;> omega
  | optState st =>
    have h1 := more_len st s
    rcases h : more st s with ⟨o, r⟩
    rw [h] at h1; simp at h1
    cases o <;> simp [more, h] <;> omega
  | orLhs st =>
    have h1 := more_len st s
    rcases h : more st s with ⟨o, r⟩
    rw [h] at h1; simp at h1
    cases o <;> simp [more, h] <;> omega
  | orRhs st =>
    have h1 := more_len st s
    rcases h : more st s with ⟨o, r⟩
    rw [h] at h1; simp at h1
    cases o <;> simp [more, h] <;> omega
  | inLhs st q =>
    have h1 := more_len st s
    rcases h : more st s with ⟨o, r⟩
    rw [h] at h1; simp at h1
    cases o with
    | done v =>
      have h2 := init_len q r
      rcases hq : init q r with ⟨o2, r2⟩
      rw [hq] at h2; simp at h2
      cases o2 with
      | none => simp [more, h, hq]; omega
      | some res2 => cases res2 <;> simp [more, h, hq] <;> omega
    | div => simp [more, h]; omega
    | cont st2 => simp [more, h]; omega
  | inBetween v q =>
    have h2 := init_len q s
    rcases hq : init q s with ⟨o2, r2⟩
    rw [hq] at h2; simp at h2
    cases o2 with
    | none => simp [more, hq]; omega
    | some res2 => cases res2 <;> simp [more, hq] <;> omega
  | inRhs v st =>
    have h1 := more_len st s
    rcases h : more st s with ⟨o, r⟩
    rw [h] at h1; simp at h1
    cases o <;> simp [more, h] <;> omega
  | starState p inner acc a =>
    have h1 := starLoop_len p inner acc a s
    simpa [more] using h1
  | bufState st buf =>
    have h1 := more_len st s
    rcases h : more st s with ⟨o, r⟩
    rw [h] at h1; simp at h1
    cases o <;> simp [more, h] <;> omega
termination_by (ssize st, s.length)
decreasing_by
  all_goals subst_vars
  all_goals (try simp [psize, ssize, isize])
  all_goals first
    | (apply Prod.Lex.left; first | omega | exact Nat.add_lt_add_left (Nat.lt_succ_of_le (ssize_pos _)) _)
    | (apply Prod.Lex.right; omega)

/-- The `Star` loop only consumes. -/
theorem starLoop_len (p : Parser) (inner : Option PState) (acc : Val)
    (a : Val → Val → Val) (s : Str) :
    (starLoop p inner acc a s).2.length ≤ s.length := by
  cases inner with
  | some st =>
    rw [starLoop_some_eq]
    have h1 := more_len st s
    rcases h : more st s with ⟨o, r⟩
    rw [h] at h1; simp at h1
    cases o with
    | cont st2 => simp [h]; omega
    | done v =>
      have h2 := starLoop_len p none (a acc v) a r
      simp
      omega
    | div => simp [h]; omega
  | none =>
    rw [starLoop_none_eq]
    have h1 := init_len p s
    rcases h : init p s with ⟨o, r⟩
    rw [h] at h1; simp at h1
    cases o with
    | none => by_cases he : r.isEmpty <;> simp [h, he] <;> omega
    | some res =>
      cases res with
      | cont st => simp [h]; omega
      | div => simp [h]; omega
      | done v =>
        by_cases h2 : r.length < s.length
        · have h3 := starLoop_len p none (a acc v) a r
          simp [h, h2]
          omega
        · simp [h, h2]; omega
termination_by (psize p + isize inner, s.length)
decreasing_by
  all_goals subst_vars
  all_goals (try simp [psize, ssize, isize])
  all_goals first
    | (apply Prod.Lex.left; first | omega | exact Nat.add_lt_add_left (Nat.lt_succ_of_le (ssize_pos _)) _)
    | (apply Prod.Lex.right; omega)

end


mutual

/-- When `init` of a well-formed parser suspends, the stream is fully
consumed (suspension happens only at the end of a fragment) and the
resulting state is well formed. -/
theorem init_cont (p : Parser) (s : Str) :
    wf p = true → ∀ st r, init p s = (some (.cont st), r) → r = [] ∧ wfS st = true := by
  cases p with
  | character f =>
    intro hw st r h
    match s with
    | [] => simp [init] at h
    | c :: cs => by_cases hf : f c <;> simp [init, hf] at h
  | anyCharacter =>
    intro hw st r h
    match s with
    | [] => simp [init] at h
    | c :: cs => simp [init] at h
  | emit v =>
    intro hw st r h
    by_cases hs : s.isEmpty <;> simp [init, hs] at h
  | discard p =>
    intro hw st r h
    rcases h1 : init p s with ⟨o, r1⟩
    cases o with
    | none => simp [init, h1] at h
    | some res =>
      cases res with
      | done v => simp [init, h1] at h
      | div => simp [init, h1] at h
      | cont st1 =>
        simp [init, h1] at h
        obtain ⟨hst, hr⟩ := h
        subst hst; subst hr
        obtain ⟨ha, hb⟩ := init_cont p s (by simpa [wf] using hw) st1 r1 h1
        exact ⟨ha, by simpa [wfS] using hb⟩
  | map f p =>
    intro hw st r h
    rcases h1 : init p s with ⟨o, r1⟩
    cases o with
    | none => simp [init, h1] at h
    | some res =>
      cases res with
      | done v => simp [init, h1] at h
      | div => simp [init, h1] at h
      | cont st1 =>
        simp [init, h1] at h
        obtain ⟨hst, hr⟩ := h
        subst hst; subst hr
        obtain ⟨ha, hb⟩ := init_cont p s (by simpa [wf] using hw) st1 r1 h1
        exact ⟨ha, by simpa [wfS] using hb⟩
  | opt p =>
    intro hw st r h
    rcases h1 : init p s with ⟨o, r1⟩
    cases o with
    | none => by_cases he : r1.isEmpty <;> simp [init, h1, he] at h
    | some res =>
      cases res with
      | done v => simp [init, h1] at h
      | div => simp [init, h1] at h
      | cont st1 =>
        simp [init, h1] at h
        obtain ⟨hst, hr⟩ := h
        subst hst; subst hr
        obtain ⟨ha, hb⟩ := init_cont p s (by simpa [wf] using hw) st1 r1 h1
        exact ⟨ha, by simpa [wfS] using hb⟩
  | orElse p q =>
    intro hw st r h
    simp [wf] at hw
    rcases h1 : init p s with ⟨o, r1⟩
    cases o with
    | none =>
      rcases h2 : init q r1 with ⟨o2, r2⟩
      cases o2 with
      | none => simp [init, h1, h2] at h
      | some res2 =>
        cases res2 with
        | done w => simp [init, h1, h2] at h
        | div => simp [init, h1, h2] at h
        | cont st2 =>
          simp [init, h1, h2] at h
          obtain ⟨hst, hr⟩ := h
          subst hst; subst hr
          obtain ⟨ha, hb⟩ := init_cont q r1 hw.2 st2 r2 h2
          exact ⟨ha, by simpa [wfS] using hb⟩
    | some res =>
      cases res with
      | done v => simp [init, h1] at h
      | div => simp [init, h1] at h
      | cont st1 =>
        simp [init, h1] at h
        obtain ⟨hst, hr⟩ := h
        subst hst; subst hr
        obtain ⟨ha, hb⟩ := init_cont p s hw.1 st1 r1 h1
        exact ⟨ha, by simpa [wfS] using hb⟩
  | andThen p q =>
    intro hw st r h
    simp [wf] at hw
    rcases h1 : init p s with ⟨o, r1⟩
    cases o with
    | none => simp [init, h1] at h
    | some res =>
      cases res with
      | div => simp [init, h1] at h
      | cont st1 =>
        simp [init, h1] at h
        obtain ⟨hst, hr⟩ := h
        subst hst; subst hr
        obtain ⟨ha, hb⟩ := init_cont p s hw.1.1 st1 r1 h1
        refine ⟨ha, ?_⟩
        simp [wfS, hb, hw.1.2, hw.2]
      | done v =>
        rcases h2 : init q r1 with ⟨o2, r2⟩
        cases o2 with
        | none =>
          simp [init, h1, h2] at h
          obtain ⟨hst, hr⟩ := h
          subst hst; subst hr
          have hr2 : r2 = r1 := init_decline_eq q r1 r2 h2
          have hr1 : r1 = [] := committed_decline_nil q r1 r2 hw.2 h2
          subst hr1
          exact ⟨hr2, by simp [wfS, hw.1.2, hw.2]⟩
        | some res2 =>
          cases res2 with
          | done w => simp [init, h1, h2] at h
          | div => simp [init, h1, h2] at h
          | cont st2 =>
            simp [init, h1, h2] at h
            obtain ⟨hst, hr⟩ := h
            subst hst; subst hr
            obtain ⟨ha, hb⟩ := init_cont q r1 hw.1.2 st2 r2 h2
            exact ⟨ha, by simpa [wfS] using hb⟩
  | star p z a =>
    intro hw st r h
    by_cases hs : s.isEmpty
    · simp [init, hs] at h
    · rcases h2 : starLoop p none z a s with ⟨o2, r2⟩
      cases o2 with
      | done v => simp [init, hs, h2] at h
      | div => simp [init, hs, h2] at h
      | cont st2 =>
        simp [init, hs, h2] at h
        obtain ⟨hst, hr⟩ := h
        subst hst; subst hr
        exact starLoop_cont p none z a s (by simpa [wf] using hw)
          (by intro si hsi; cases hsi) st2 r2 h2
  | plus p z a =>
    intro hw st r h
    rcases h1 : init p s with ⟨o, r1⟩
    cases o with
    | none => simp [init, h1] at h
    | some res =>
      cases res with
      | div => simp [init, h1] at h
      | cont st1 =>
        simp [init, h1] at h
        obtain ⟨hst, hr⟩ := h
        subst hst; subst hr
        obtain ⟨ha, hb⟩ := init_cont p s (by simpa [wf] using hw) st1 r1 h1
        refine ⟨ha, ?_⟩
        simp [wfS, hb]
        simpa [wf] using hw
      | done v =>
        rcases h2 : starLoop p none (a z v) a r1 with ⟨o2, r2⟩
        cases o2 with
        | done w => simp [init, h1, h2] at h
        | div => simp [init, h1, h2] at h
        | cont st2 =>
          simp [init, h1, h2] at h
          obtain ⟨hst, hr⟩ := h
          subst hst; subst hr
          exact starLoop_cont p none (a z v) a r1 (by simpa [wf] using hw)
            (by intro si hsi; cases hsi) st2 r2 h2
  | buffered p =>
    intro hw st r h
    rcases h1 : init p s with ⟨o, r1⟩
    cases o with
    | none => simp [init, h1] at h
    | some res =>
      cases res with
      | done v => simp [init, h1] at h
      | div => simp [init, h1] at h
      | cont st1 =>
        simp [init, h1] at h
        obtain ⟨hst, hr⟩ := h
        subst hst; subst hr
        obtain ⟨ha, hb⟩ := init_cont p s (by simpa [wf] using hw) st1 r1 h1
        exact ⟨ha, by simpa [wfS] using hb⟩
termination_by (psize p, s.length)
decreasing_by
  all_goals subst_vars
  all_goals (try simp [psize, ssize, isize])
  all_goals first
    | (apply Prod.Lex.left; first | omega | exact Nat.add_lt_add_left (Nat.lt_succ_of_le (ssize_pos _)) _)
    | (apply Prod.Lex.right; omega)

/-- When `more` of a well-formed state suspends, the stream is fully
consumed and the resulting state is well formed. -/
theorem more_cont (st0 : PState) (s : Str) :
    wfS st0 = true → ∀ st r, more st0 s = (.cont st, r) → r = [] ∧ wfS st = true := by
  cases st0 with
  | anyState =>
    intro hw st r h
    match s with
    | [] =>
      simp [more] at h
      obtain ⟨hst, hr⟩ := h
      subst hst; subst hr
      exact ⟨rfl, by simp [wfS]⟩
    | c :: cs => simp [more] at h
  | emitState v => intro hw st r h; simp [more] at h
  | discardState st1 =>
    intro hw st r h
    rcases h1 : more st1 s with ⟨o, r1⟩
    cases o with
    | done v => simp [more, h1] at h
    | div => simp [more, h1] at h
    | cont st2 =>
      simp [more, h1] at h
      obtain ⟨hst, hr⟩ := h
      subst hst; subst hr
      obtain ⟨ha, hb⟩ := more_cont st1 s (by simpa [wfS] using hw) st2 r1 h1
      exact ⟨ha, by simpa [wfS] using hb⟩
  | mapState f st1 =>
    intro hw st r h
    rcases h1 : more st1 s with ⟨o, r1⟩
    cases o with
    | done v => simp [more, h1] at h
    | div => simp [more, h1] at h
    | cont st2 =>
      simp [more, h1] at h
      obtain ⟨hst, hr⟩ := h
      subst hst; subst hr
      obtain ⟨ha, hb⟩ := more_cont st1 s (by simpa [wfS] using hw) st2 r1 h1
      exact ⟨ha, by simpa [wfS] using hb⟩
  | optState st1 =>
    intro hw st r h
    rcases h1 : more st1 s with ⟨o, r1⟩
    cases o with
    | done v => simp [more, h1] at h
    | div => simp [more, h1] at h
    | cont st2 =>
      simp [more, h1] at h
      obtain ⟨hst, hr⟩ := h
      subst hst; subst hr
      obtain ⟨ha, hb⟩ := more_cont st1 s (by simpa [wfS] using hw) st2 r1 h1
      exact ⟨ha, by simpa [wfS] using hb⟩
  | orLhs st1 =>
    intro hw st r h
    rcases h1 : more st1 s with ⟨o, r1⟩
    cases o with
    | done v => simp [more, h1] at h
    | div => simp [more, h1] at h
    | cont st2 =>
      simp [more, h1] at h
      obtain ⟨hst, hr⟩ := h
      subst hst; subst hr
      obtain ⟨ha, hb⟩ := more_cont st1 s (by simpa [wfS] using hw) st2 r1 h1
      exact ⟨ha, by simpa [wfS] using hb⟩
  | orRhs st1 =>
    intro hw st r h
    rcases h1 : more st1 s with ⟨o, r1⟩
    cases o with
    | done v => simp [more, h1] at h
    | div => simp [more, h1] at h
    | cont st2 =>
      simp [more, h1] at h
      obtain ⟨hst, hr⟩ := h
      subst hst; subst hr
      obtain ⟨ha, hb⟩ := more_cont st1 s (by simpa [wfS] using hw) st2 r1 h1
      exact ⟨ha, by simpa [wfS] using hb⟩
  | inLhs st1 q =>
    intro hw st r h
    simp [wfS] at hw
    rcases h1 : more st1 s with ⟨o, r1⟩
    cases o with
    | div => simp [more, h1] at h
    | cont st2 =>
      simp [more, h1] at h
      obtain ⟨hst, hr⟩ := h
      subst hst; subst hr
      obtain ⟨ha, hb⟩ := more_cont st1 s hw.1.1 st2 r1 h1
      refine ⟨ha, ?_⟩
      simp [wfS, hb, hw.1.2, hw.2]
    | done v =>
      rcases h2 : init q r1 with ⟨o2, r2⟩
      cases o2 with
      | none =>
        simp [more, h1, h2] at h
        obtain ⟨hst, hr⟩ := h
        subst hst; subst hr
        have hr2 : r2 = r1 := init_decline_eq q r1 r2 h2
        have hr1 : r1 = [] := committed_decline_nil q r1 r2 hw.2 h2
        subst hr1
        exact ⟨hr2, by simp [wfS, hw.1.2, hw.2]⟩
      | some res2 =>
        cases res2 with
        | done w => simp [more, h1, h2] at h
        | div => simp [more, h1, h2] at h
        | cont st2 =>
          simp [more, h1, h2] at h
          obtain ⟨hst, hr⟩ := h
          subst hst; subst hr
          obtain ⟨ha, hb⟩ := init_cont q r1 hw.1.2 st2 r2 h2
          exact ⟨ha, by simpa [wfS] using hb⟩
  | inBetween v q =>
    intro hw st r h
    simp [wfS] at hw
    rcases h2 : init q s with ⟨o2, r2⟩
    cases o2 with
    | none =>
      simp [more, h2] at h
      obtain ⟨hst, hr⟩ := h
      subst hst; subst hr
      have hr2 : r2 = s := init_decline_eq q s r2 h2
      have hs : s = [] := committed_decline_nil q s r2 hw.2 h2
      subst hs
      exact ⟨hr2, by simp [wfS, hw.1, hw.2]⟩
    | some res2 =>
      cases res2 with
      | done w => simp [more, h2] at h
      | div => simp [more, h2] at h
      | cont st2 =>
        simp [more, h2] at h
        obtain ⟨hst, hr⟩ := h
        subst hst; subst hr
        obtain ⟨ha, hb⟩ := init_cont q s hw.1 st2 r2 h2
        exact ⟨ha, by simpa [wfS] using hb⟩
  | inRhs v st1 =>
    intro hw st r h
    rcases h1 : more st1 s with ⟨o, r1⟩
    cases o with
    | done w => simp [more, h1] at h
    | div => simp [more, h1] at h
    | cont st2 =>
      simp [more, h1] at h
      obtain ⟨hst, hr⟩ := h
      subst hst; subst hr
      obtain ⟨ha, hb⟩ := more_cont st1 s (by simpa [wfS] using hw) st2 r1 h1
      exact ⟨ha, by simpa [wfS] using hb⟩
  | starState p inner acc a =>
    intro hw st r h
    have hmore : more (.starState p inner acc a) s = starLoop p inner acc a s := by
      simp [more]
    rw [hmore] at h
    cases inner with
    | none =>
      simp [wfS] at hw
      exact starLoop_cont p none acc a s hw (by intro si hsi; cases hsi) st r h
    | some si =>
      simp [wfS] at hw
      refine starLoop_cont p (some si) acc a s hw.1 ?_ st r h
      intro si2 hsi
      cases hsi
      exact hw.2
  | bufState st1 buf =>
    intro hw st r h
    rcases h1 : more st1 s with ⟨o, r1⟩
    cases o with
    | done v => simp [more, h1] at h
    | div => simp [more, h1] at h
    | cont st2 =>
      simp [more, h1] at h
      obtain ⟨hst, hr⟩ := h
      subst hst; subst hr
      obtain ⟨ha, hb⟩ := more_cont st1 s (by simpa [wfS] using hw) st2 r1 h1
      exact ⟨ha, by simpa [wfS] using hb⟩
termination_by (ssize st0, s.length)
decreasing_by
  all_goals subst_vars
  all_goals (try simp [psize, ssize, isize])
  all_goals first
    | (apply Prod.Lex.left; first | omega | exact Nat.add_lt_add_left (Nat.lt_succ_of_le (ssize_pos _)) _)
    | (apply Prod.Lex.right; omega)

/-- When the `Star` loop suspends, the stream is fully consumed and the
resulting state is a well-formed `starState`. -/
theorem starLoop_cont (p : Parser) (inner : Option PState) (acc : Val)
    (a : Val → Val → Val) (s : Str) :
    wf p = true → (∀ si, inner = some si → wfS si = true) →
    ∀ st r, starLoop p inner acc a s = (.cont st, r) → r = [] ∧ wfS st = true := by
  cases inner with
  | some si =>
    intro hw hi st r h
    rw [starLoop_some_eq] at h
    rcases h1 : more si s with ⟨o, r1⟩
    rw [h1] at h
    cases o with
    | cont st2 =>
      simp at h
      obtain ⟨hst, hr⟩ := h
      subst hst; subst hr
      obtain ⟨ha, hb⟩ := more_cont si s (hi si rfl) st2 r1 h1
      exact ⟨ha, by simp [wfS, hb, hw]⟩
    | done v =>
      simp at h
      exact starLoop_cont p none (a acc v) a r1 hw (by intro si2 hsi; cases hsi) st r h
    | div => simp at h
  | none =>
    intro hw hi st r h
    rw [starLoop_none_eq] at h
    rcases h1 : init p s with ⟨o, r1⟩
    rw [h1] at h
    cases o with
    | none =>
      by_cases he : r1.isEmpty
      · simp [he] at h
        obtain ⟨hst, hr⟩ := h
        subst hst; subst hr
        refine ⟨by simpa using he, ?_⟩
        simp [wfS, hw]
      · simp [he] at h
    | some res =>
      cases res with
      | cont st2 =>
        simp at h
        obtain ⟨hst, hr⟩ := h
        subst hst; subst hr
        obtain ⟨ha, hb⟩ := init_cont p s hw st2 r1 h1
        exact ⟨ha, by simp [wfS, hb, hw]⟩
      | div => simp at h
      | done v =>
        by_cases h2 : r1.length < s.length
        · simp [h2] at h
          exact starLoop_cont p none (a acc v) a r1 hw (by intro si2 hsi; cases hsi) st r h
        · simp [h2] at h
termination_by (psize p + isize inner, s.length)
decreasing_by
  all_goals subst_vars
  all_goals (try simp [psize, ssize, isize])
  all_goals first
    | (apply Prod.Lex.left; first | omega | exact Nat.add_lt_add_left (Nat.lt_succ_of_le (ssize_pos _)) _)
    | (apply Prod.Lex.right; omega)

end


/-- A nonempty list is not `isEmpty`. -/
theorem isEmpty_false_of_ne {l : List Char} (h : l ≠ []) : l.isEmpty = false := by
  cases l with
  | nil => exact absurd rfl h
  | cons c cs => rfl

/-- A nonempty list prefix keeps an appended list nonempty. -/
theorem isEmpty_append_false_of_ne {l1 : List Char} (l2 : List Char) (h : l1 ≠ []) :
    (l1 ++ l2).isEmpty = false := by
  cases l1 with
  | nil => exact absurd rfl h
  | cons c cs => rfl

/-- Resuming a `starState` runs the driving loop. -/
theorem more_starState (p : Parser) (inner : Option PState) (acc : Val)
    (a : Val → Val → Val) (s : Str) :
    more (.starState p inner acc a) s = starLoop p inner acc a s := by
  simp [more]

/-- The `Star` loop suspends immediately on an empty fragment. -/
theorem starLoop_nil (p : Parser) (acc : Val) (a : Val → Val → Val) :
    starLoop p none acc a [] = (.cont (.starState p none acc a), []) := by
  rw [starLoop_none_eq]
  simp [init_nil]

/-- Continue a first-fragment `Stateful::more` outcome with a further
fragment: a finished or diverged run just carries the extra input along,
a suspended run resumes on it. -/
def combineM : Res × Str → Str → Res × Str
  | (.done v, r), s2 => (.done v, r ++ s2)
  | (.div, r), s2 => (.div, r ++ s2)
  | (.cont st, _), s2 => more st s2

/-- Continue a first-fragment `Uncommitted::init` outcome with a further
fragment. -/
def combineI : Option Res × Str → Str → Option Res × Str
  | (none, r), s2 => (none, r ++ s2)
  | (some (.done v), r), s2 => (some (.done v), r ++ s2)
  | (some .div, r), s2 => (some .div, r ++ s2)
  | (some (.cont st), _), s2 =>
    match more st s2 with
    | (o, t) => (some o, t)

mutual

/-- Fragmentation composition for `init`: running a well-formed parser on
a concatenated input is the same as running it on the first part and
continuing the outcome on the second.  This is the heart of chunk
invariance. -/
theorem init_append (p : Parser) (s1 s2 : Str) (hw : wf p = true) (h1 : s1 ≠ []) :
    init p (s1 ++ s2) = combineI (init p s1) s2 := by
  cases p with
  | character f =>
    cases s1 with
    | nil => exact absurd rfl h1
    | cons c cs => by_cases hf : f c <;> simp [init, hf, combineI]
  | anyCharacter =>
    cases s1 with
    | nil => exact absurd rfl h1
    | cons c cs => simp [init, combineI]
  | emit v =>
    have hne1 : s1.isEmpty = false := isEmpty_false_of_ne h1
    have hne12 : (s1 ++ s2).isEmpty = false := isEmpty_append_false_of_ne s2 h1
    simp [init, hne1, hne12, combineI]
  | discard p =>
    have hIH := init_append p s1 s2 (by simpa [wf] using hw) h1
    rcases hp : init p s1 with ⟨o, r1⟩
    rw [hp] at hIH
    cases o with
    | none => simp [combineI] at hIH; simp [init, hp, hIH, combineI]
    | some res =>
      cases res with
      | done v => simp [combineI] at hIH; simp [init, hp, hIH, combineI]
      | div => simp [combineI] at hIH; simp [init, hp, hIH, combineI]
      | cont st =>
        rcases hm : more st s2 with ⟨o2, t2⟩
        simp [combineI, hm] at hIH
        cases o2 <;> simp [init, more, hp, hIH, hm, combineI]
  | map f p =>
    have hIH := init_append p s1 s2 (by simpa [wf] using hw) h1
    rcases hp : init p s1 with ⟨o, r1⟩
    rw [hp] at hIH
    cases o with
    | none => simp [combineI] at hIH; simp [init, hp, hIH, combineI]
    | some res =>
      cases res with
      | done v => simp [combineI] at hIH; simp [init, hp, hIH, combineI]
      | div => simp [combineI] at hIH; simp [init, hp, hIH, combineI]
      | cont st =>
        rcases hm : more st s2 with ⟨o2, t2⟩
        simp [combineI, hm] at hIH
        cases o2 <;> simp [init, more, hp, hIH, hm, combineI]
  | opt p =>
    have hIH := init_append p s1 s2 (by simpa [wf] using hw) h1
    rcases hp : init p s1 with ⟨o, r1⟩
    rw [hp] at hIH
    cases o with
    | none =>
      simp [combineI] at hIH
      have hr1 : r1 = s1 := init_decline_eq p s1 r1 hp
      rw [hr1] at hp hIH
      have hne1 : s1.isEmpty = false := isEmpty_false_of_ne h1
      have hne12 : (s1 ++ s2).isEmpty = false := isEmpty_append_false_of_ne s2 h1
      simp [init, hp, hIH, hne1, hne12, combineI]
    | some res =>
      cases res with
      | done v => simp [combineI] at hIH; simp [init, hp, hIH, combineI]
      | div => simp [combineI] at hIH; simp [init, hp, hIH, combineI]
      | cont st =>
        rcases hm : more st s2 with ⟨o2, t2⟩
        simp [combineI, hm] at hIH
        cases o2 <;> simp [init, more, hp, hIH, hm, combineI]
  | orElse p q =>
    have hw2 : wf p = true ∧ wf q = true := by simpa [wf] using hw
    have hIH := init_append p s1 s2 hw2.1 h1
    rcases hp : init p s1 with ⟨o, r1⟩
    rw [hp] at hIH
    cases o with
    | none =>
      simp [combineI] at hIH
      have hr1 : r1 = s1 := init_decline_eq p s1 r1 hp
      rw [hr1] at hp hIH
      have hIHq := init_append q s1 s2 hw2.2 h1
      rcases hq : init q s1 with ⟨oq, rq⟩
      rw [hq] at hIHq
      cases oq with
      | none => simp [combineI] at hIHq; simp [init, hp, hIH, hq, hIHq, combineI]
      | some resq =>
        cases resq with
        | done w => simp [combineI] at hIHq; simp [init, hp, hIH, hq, hIHq, combineI]
        | div => simp [combineI] at hIHq; simp [init, hp, hIH, hq, hIHq, combineI]
        | cont st =>
          rcases hm : more st s2 with ⟨o2, t2⟩
          simp [combineI, hm] at hIHq
          cases o2 <;> simp [init, more, hp, hIH, hq, hIHq, hm, combineI]
    | some res =>
      cases res with
      | done v => simp [combineI] at hIH; simp [init, hp, hIH, combineI]
      | div => simp [combineI] at hIH; simp [init, hp, hIH, combineI]
      | cont st =>
        rcases hm : more st s2 with ⟨o2, t2⟩
        simp [combineI, hm] at hIH
        cases o2 <;> simp [init, more, hp, hIH, hm, combineI]
  | andThen p q =>
    have hw2 : (wf p = true ∧ wf q = true) ∧ hasEmpty q = true := by simpa [wf] using hw
    have hIH := init_append p s1 s2 hw2.1.1 h1
    rcases hp : init p s1 with ⟨o, r1⟩
    rw [hp] at hIH
    cases o with
    | none => simp [combineI] at hIH; simp [init, hp, hIH, combineI]
    | some res =>
      cases res with
      | div => simp [combineI] at hIH; simp [init, hp, hIH, combineI]
      | cont st =>
        rcases hm : more st s2 with ⟨o2, t2⟩
        simp [combineI, hm] at hIH
        cases o2 with
        | cont st2 => simp [init, more, hp, hIH, hm, combineI]
        | div => simp [init, more, hp, hIH, hm, combineI]
        | done v =>
          rcases hq2 : init q t2 with ⟨oq, rq⟩
          cases oq with
          | none => simp [init, more, hp, hIH, hm, hq2, combineI]
          | some resq => cases resq <;> simp [init, more, hp, hIH, hm, hq2, combineI]
      | done v =>
        simp [combineI] at hIH
        by_cases hr1 : r1 = []
        · subst hr1
          rcases hq2 : init q s2 with ⟨oq, rq⟩
          cases oq with
          | none => simp [init, more, hp, hIH, hq2, init_nil, combineI]
          | some resq => cases resq <;> simp [init, more, hp, hIH, hq2, init_nil, combineI]
        · have hIHq := init_append q r1 s2 hw2.1.2 hr1
          rcases hq : init q r1 with ⟨oq, rq⟩
          rw [hq] at hIHq
          cases oq with
          | none =>
            have : r1 = [] := committed_decline_nil q r1 rq hw2.2 hq
            exact absurd this hr1
          | some resq =>
            cases resq with
            | done w => simp [combineI] at hIHq; simp [init, hp, hIH, hq, hIHq, combineI]
            | div => simp [combineI] at hIHq; simp [init, hp, hIH, hq, hIHq, combineI]
            | cont st2 =>
              rcases hm2 : more st2 s2 with ⟨o3, t3⟩
              simp [combineI, hm2] at hIHq
              cases o3 <;> simp [init, more, hp, hIH, hq, hIHq, hm2, combineI]
  | star p z a =>
    have hwp : wf p = true := by simpa [wf] using hw
    have hne1 : s1.isEmpty = false := isEmpty_false_of_ne h1
    have hne12 : (s1 ++ s2).isEmpty = false := isEmpty_append_false_of_ne s2 h1
    have hIH := starLoop_append p none z a s1 s2 hwp (by intro si hsi; cases hsi) h1
    rcases hsl : starLoop p none z a s1 with ⟨o1, t1⟩
    rw [hsl] at hIH
    cases o1 with
    | done v => simp [combineM] at hIH; simp [init, hne1, hne12, hsl, hIH, combineI]
    | div => simp [combineM] at hIH; simp [init, hne1, hne12, hsl, hIH, combineI]
    | cont st =>
      rcases hm : more st s2 with ⟨o2, t2⟩
      simp [combineM, hm] at hIH
      simp [init, hne1, hne12, hsl, hIH, hm, combineI]
  | plus p z a =>
    have hwp : wf p = true := by simpa [wf] using hw
    have hIH := init_append p s1 s2 hwp h1
    rcases hp : init p s1 with ⟨o, r1⟩
    rw [hp] at hIH
    cases o with
    | none => simp [combineI] at hIH; simp [init, hp, hIH, combineI]
    | some res =>
      cases res with
      | div => simp [combineI] at hIH; simp [init, hp, hIH, combineI]
      | cont st =>
        rcases hm : more st s2 with ⟨o2, t2⟩
        simp [combineI, hm] at hIH
        cases o2 with
        | cont st2 => simp [init, more_starState, starLoop_some_eq, hp, hIH, hm, combineI]
        | div => simp [init, more_starState, starLoop_some_eq, hp, hIH, hm, combineI]
        | done v =>
          rcases hsl : starLoop p none (a z v) a t2 with ⟨o3, t3⟩
          simp [init, more_starState, starLoop_some_eq, hp, hIH, hm, hsl, combineI]
      | done v =>
        simp [combineI] at hIH
        by_cases hr1 : r1 = []
        · subst hr1
          rcases hsl2 : starLoop p none (a z v) a s2 with ⟨o3, t3⟩
          simp [init, more_starState, hp, hIH, starLoop_nil, hsl2, combineI]
        · have hIH2 := starLoop_append p none (a z v) a r1 s2 hwp (by intro si hsi; cases hsi) hr1
          rcases hsl : starLoop p none (a z v) a r1 with ⟨o3, t3⟩
          rw [hsl] at hIH2
          cases o3 with
          | done w => simp [combineM] at hIH2; simp [init, hp, hIH, hsl, hIH2, combineI]
          | div => simp [combineM] at hIH2; simp [init, hp, hIH, hsl, hIH2, combineI]
          | cont st3 =>
            rcases hm3 : more st3 s2 with ⟨o4, t4⟩
            simp [combineM, hm3] at hIH2
            simp [init, more_starState, hp, hIH, hsl, hIH2, hm3, combineI]
  | buffered p =>
    have hIH := init_append p s1 s2 (by simpa [wf] using hw) h1
    rcases hp : init p s1 with ⟨o, r1⟩
    rw [hp] at hIH
    cases o with
    | none => simp [combineI] at hIH; simp [init, hp, hIH, combineI]
    | some res =>
      cases res with
      | div => simp [combineI] at hIH; simp [init, hp, hIH, combineI]
      | done v =>
        simp [combineI] at hIH
        have htake : (s1 ++ s2).take (s1.length + s2.length - (r1.length + s2.length))
            = s1.take (s1.length - r1.length) := by
          have h5 : s1.length + s2.length - (r1.length + s2.length) = s1.length - r1.length := by
            omega
          rw [h5]
          exact List.take_append_of_le_length (Nat.sub_le _ _)
        simp [init, hp, hIH, combineI, htake]
      | cont st =>
        rcases hm : more st s2 with ⟨o2, t2⟩
        simp [combineI, hm] at hIH
        cases o2 with
        | cont st2 => simp [init, more, hp, hIH, hm, combineI]
        | div => simp [init, more, hp, hIH, hm, combineI]
        | done w =>
          have hlen2 := more_len st s2
          rw [hm] at hlen2; simp at hlen2
          have htake : (s1 ++ s2).take (s1.length + s2.length - t2.length)
              = s1 ++ s2.take (s2.length - t2.length) := by
            have h5 : s1.length + s2.length - t2.length = s1.length + (s2.length - t2.length) := by
              omega
            rw [h5]
            exact List.take_append _
          simp [init, more, hp, hIH, hm, combineI, htake]
termination_by (psize p, s1.length)
decreasing_by
  all_goals subst_vars
  all_goals (try simp [psize, ssize, isize])
  all_goals first
    | (apply Prod.Lex.left; first | omega | exact Nat.add_lt_add_left (Nat.lt_succ_of_le (ssize_pos _)) _)
    | (apply Prod.Lex.right; omega)

/-- Fragmentation composition for `more`. -/
theorem more_append (st0 : PState) (s1 s2 : Str) (hw : wfS st0 = true) (h1 : s1 ≠ []) :
    more st0 (s1 ++ s2) = combineM (more st0 s1) s2 := by
  cases st0 with
  | anyState =>
    cases s1 with
    | nil => exact absurd rfl h1
    | cons c cs => simp [more, combineM]
  | emitState v => simp [more, combineM]
  | discardState st1 =>
    have hIH := more_append st1 s1 s2 (by simpa [wfS] using hw) h1
    rcases hp : more st1 s1 with ⟨o, r1⟩
    rw [hp] at hIH
    cases o with
    | done v => simp [combineM] at hIH; simp [more, hp, hIH, combineM]
    | div => simp [combineM] at hIH; simp [more, hp, hIH, combineM]
    | cont st2 =>
      rcases hm : more st2 s2 with ⟨o2, t2⟩
      simp [combineM, hm] at hIH
      cases o2 <;> simp [more, hp, hIH, hm, combineM]
  | mapState f st1 =>
    have hIH := more_append st1 s1 s2 (by simpa [wfS] using hw) h1
    rcases hp : more st1 s1 with ⟨o, r1⟩
    rw [hp] at hIH
    cases o with
    | done v => simp [combineM] at hIH; simp [more, hp, hIH, combineM]
    | div => simp [combineM] at hIH; simp [more, hp, hIH, combineM]
    | cont st2 =>
      rcases hm : more st2 s2 with ⟨o2, t2⟩
      simp [combineM, hm] at hIH
      cases o2 <;> simp [more, hp, hIH, hm, combineM]
  | optState st1 =>
    have hIH := more_append st1 s1 s2 (by simpa [wfS] using hw) h1
    rcases hp : more st1 s1 with ⟨o, r1⟩
    rw [hp] at hIH
    cases o with
    | done v => simp [combineM] at hIH; simp [more, hp, hIH, combineM]
    | div => simp [combineM] at hIH; simp [more, hp, hIH, combineM]
    | cont st2 =>
      rcases hm : more st2 s2 with ⟨o2, t2⟩
      simp [combineM, hm] at hIH
      cases o2 <;> simp [more, hp, hIH, hm, combineM]
  | orLhs st1 =>
    have hIH := more_append st1 s1 s2 (by simpa [wfS] using hw) h1
    rcases hp : more st1 s1 with ⟨o, r1⟩
    rw [hp] at hIH
    cases o with
    | done v => simp [combineM] at hIH; simp [more, hp, hIH, combineM]
    | div => simp [combineM] at hIH; simp [more, hp, hIH, combineM]
    | cont st2 =>
      rcases hm : more st2 s2 with ⟨o2, t2⟩
      simp [combineM, hm] at hIH
      cases o2 <;> simp [more, hp, hIH, hm, combineM]
  | orRhs st1 =>
    have hIH := more_append st1 s1 s2 (by simpa [wfS] using hw) h1
    rcases hp : more st1 s1 with ⟨o, r1⟩
    rw [hp] at hIH
    cases o with
    | done v => simp [combineM] at hIH; simp [more, hp, hIH, combineM]
    | div => simp [combineM] at hIH; simp [more, hp, hIH, combineM]
    | cont st2 =>
      rcases hm : more st2 s2 with ⟨o2, t2⟩
      simp [combineM, hm] at hIH
      cases o2 <;> simp [more, hp, hIH, hm, combineM]
  | inLhs st1 q =>
    have hw2 : (wfS st1 = true ∧ wf q = true) ∧ hasEmpty q = true := by simpa [wfS] using hw
    have hIH := more_append st1 s1 s2 hw2.1.1 h1
    rcases hp : more st1 s1 with ⟨o, r1⟩
    rw [hp] at hIH
    cases o with
    | div => simp [combineM] at hIH; simp [more, hp, hIH, combineM]
    | cont st2 =>
      rcases hm : more st2 s2 with ⟨o2, t2⟩
      simp [combineM, hm] at hIH
      cases o2 with
      | cont st3 => simp [more, hp, hIH, hm, combineM]
      | div => simp [more, hp, hIH, hm, combineM]
      | done v =>
        rcases hq2 : init q t2 with ⟨oq, rq⟩
        cases oq with
        | none => simp [more, hp, hIH, hm, hq2, combineM]
        | some resq => cases resq <;> simp [more, hp, hIH, hm, hq2, combineM]
    | done v =>
      simp [combineM] at hIH
      by_cases hr1 : r1 = []
      · subst hr1
        rcases hq2 : init q s2 with ⟨oq, rq⟩
        cases oq with
        | none => simp [more, hp, hIH, hq2, init_nil, combineM]
        | some resq => cases resq <;> simp [more, hp, hIH, hq2, init_nil, combineM]
      · have hIHq := init_append q r1 s2 hw2.1.2 hr1
        rcases hq : init q r1 with ⟨oq, rq⟩
        rw [hq] at hIHq
        cases oq with
        | none =>
          have : r1 = [] := committed_decline_nil q r1 rq hw2.2 hq
          exact absurd this hr1
        | some resq =>
          cases resq with
          | done w => simp [combineI] at hIHq; simp [more, hp, hIH, hq, hIHq, combineM]
          | div => simp [combineI] at hIHq; simp [more, hp, hIH, hq, hIHq, combineM]
          | cont st2 =>
            rcases hm2 : more st2 s2 with ⟨o3, t3⟩
            simp [combineI, hm2] at hIHq
            cases o3 <;> simp [more, hp, hIH, hq, hIHq, hm2, combineM]
  | inBetween v q =>
    have hw2 : wf q = true ∧ hasEmpty q = true := by simpa [wfS] using hw
    have hIHq := init_append q s1 s2 hw2.1 h1
    rcases hq : init q s1 with ⟨oq, rq⟩
    rw [hq] at hIHq
    cases oq with
    | none =>
      have : s1 = [] := committed_decline_nil q s1 rq hw2.2 hq
      exact absurd this h1
    | some resq =>
      cases resq with
      | done w => simp [combineI] at hIHq; simp [more, hq, hIHq, combineM]
      | div => simp [combineI] at hIHq; simp [more, hq, hIHq, combineM]
      | cont st2 =>
        rcases hm2 : more st2 s2 with ⟨o3, t3⟩
        simp [combineI, hm2] at hIHq
        cases o3 <;> simp [more, hq, hIHq, hm2, combineM]
  | inRhs v st1 =>
    have hIH := more_append st1 s1 s2 (by simpa [wfS] using hw) h1
    rcases hp : more st1 s1 with ⟨o, r1⟩
    rw [hp] at hIH
    cases o with
    | done w => simp [combineM] at hIH; simp [more, hp, hIH, combineM]
    | div => simp [combineM] at hIH; simp [more, hp, hIH, combineM]
    | cont st2 =>
      rcases hm : more st2 s2 with ⟨o2, t2⟩
      simp [combineM, hm] at hIH
      cases o2 <;> simp [more, hp, hIH, hm, combineM]
  | starState p inner acc a =>
    rw [more_starState, more_starState]
    cases inner with
    | none =>
      have hwp : wf p = true := by simpa [wfS] using hw
      exact starLoop_append p none acc a s1 s2 hwp (by intro si hsi; cases hsi) h1
    | some si =>
      have hw2 : wf p = true ∧ wfS si = true := by simpa [wfS] using hw
      refine starLoop_append p (some si) acc a s1 s2 hw2.1 ?_ h1
      intro si2 hsi
      cases hsi
      exact hw2.2
  | bufState st1 buf =>
    have hIH := more_append st1 s1 s2 (by simpa [wfS] using hw) h1
    rcases hp : more st1 s1 with ⟨o, r1⟩
    rw [hp] at hIH
    cases o with
    | div => simp [combineM] at hIH; simp [more, hp, hIH, combineM]
    | done v =>
      simp [combineM] at hIH
      have htake : (s1 ++ s2).take (s1.length + s2.length - (r1.length + s2.length))
          = s1.take (s1.length - r1.length) := by
        have h5 : s1.length + s2.length - (r1.length + s2.length) = s1.length - r1.length := by
          omega
        rw [h5]
        exact List.take_append_of_le_length (Nat.sub_le _ _)
      simp [more, hp, hIH, combineM, htake]
    | cont st2 =>
      rcases hm : more st2 s2 with ⟨o2, t2⟩
      simp [combineM, hm] at hIH
      cases o2 with
      | cont st3 => simp [more, hp, hIH, hm, combineM]
      | div => simp [more, hp, hIH, hm, combineM]
      | done w =>
        have hlen2 := more_len st2 s2
        rw [hm] at hlen2; simp at hlen2
        have htake : (s1 ++ s2).take (s1.length + s2.length - t2.length)
            = s1 ++ s2.take (s2.length - t2.length) := by
          have h5 : s1.length + s2.length - t2.length = s1.length + (s2.length - t2.length) := by
            omega
          rw [h5]
          exact List.take_append _
        simp [more, hp, hIH, hm, combineM, htake]
termination_by (ssize st0, s1.length)
decreasing_by
  all_goals subst_vars
  all_goals (try simp [psize, ssize, isize])
  all_goals first
    | (apply Prod.Lex.left; first | omega | exact Nat.add_lt_add_left (Nat.lt_succ_of_le (ssize_pos _)) _)
    | (apply Prod.Lex.right; omega)

/-- Fragmentation composition for the `Star` loop. -/
theorem starLoop_append (p : Parser) (inner : Option PState) (acc : Val)
    (a : Val → Val → Val) (s1 s2 : Str) (hw : wf p = true)
    (hi : ∀ si, inner = some si → wfS si = true) (h1 : s1 ≠ []) :
    starLoop p inner acc a (s1 ++ s2) = combineM (starLoop p inner acc a s1) s2 := by
  cases inner with
  | some si =>
    have hwsi := hi si rfl
    have hIH := more_append si s1 s2 hwsi h1
    rcases hp : more si s1 with ⟨o, r1⟩
    rw [hp] at hIH
    cases o with
    | div =>
      simp [combineM] at hIH
      rw [starLoop_some_eq p si acc a (s1 ++ s2), starLoop_some_eq p si acc a s1]
      simp [hp, hIH, combineM]
    | cont st2 =>
      rcases hm : more st2 s2 with ⟨o2, t2⟩
      simp [combineM, hm] at hIH
      rw [starLoop_some_eq p si acc a (s1 ++ s2), starLoop_some_eq p si acc a s1]
      cases o2 <;>
        simp [hp, hIH, hm, combineM, more_starState, starLoop_some_eq]
    | done v =>
      simp [combineM] at hIH
      rw [starLoop_some_eq p si acc a (s1 ++ s2), starLoop_some_eq p si acc a s1]
      by_cases hr1 : r1 = []
      · subst hr1
        rcases hsl2 : starLoop p none (a acc v) a s2 with ⟨o3, t3⟩
        simp [hp, hIH, starLoop_nil, hsl2, combineM, more_starState]
      · have hIH2 := starLoop_append p none (a acc v) a r1 s2 hw (by intro si2 hsi; cases hsi) hr1
        rcases hsl : starLoop p none (a acc v) a r1 with ⟨o3, t3⟩
        rw [hsl] at hIH2
        cases o3 with
        | done w => simp [combineM] at hIH2; simp [hp, hIH, hsl, hIH2, combineM]
        | div => simp [combineM] at hIH2; simp [hp, hIH, hsl, hIH2, combineM]
        | cont st3 =>
          rcases hm3 : more st3 s2 with ⟨o4, t4⟩
          simp [combineM, hm3] at hIH2
          simp [hp, hIH, hsl, hIH2, hm3, combineM]
  | none =>
    have hIH := init_append p s1 s2 hw h1
    rcases hp : init p s1 with ⟨o, r1⟩
    rw [hp] at hIH
    cases o with
    | none =>
      simp [combineI] at hIH
      have hr1 : r1 = s1 := init_decline_eq p s1 r1 hp
      rw [hr1] at hp hIH
      have hne1 : s1.isEmpty = false := isEmpty_false_of_ne h1
      have hne12 : (s1 ++ s2).isEmpty = false := isEmpty_append_false_of_ne s2 h1
      rw [starLoop_none_eq p acc a (s1 ++ s2), starLoop_none_eq p acc a s1]
      simp [hp, hIH, hne1, hne12, combineM]
    | some res =>
      cases res with
      | div =>
        simp [combineI] at hIH
        rw [starLoop_none_eq p acc a (s1 ++ s2), starLoop_none_eq p acc a s1]
        simp [hp, hIH, combineM]
      | cont st2 =>
        rcases hm : more st2 s2 with ⟨o2, t2⟩
        simp [combineI, hm] at hIH
        rw [starLoop_none_eq p acc a (s1 ++ s2), starLoop_none_eq p acc a s1]
        have hlen2 := more_len st2 s2
        rw [hm] at hlen2; simp at hlen2
        cases o2 with
        | cont st3 => simp [hp, hIH, hm, combineM, more_starState, starLoop_some_eq]
        | div => simp [hp, hIH, hm, combineM, more_starState, starLoop_some_eq]
        | done v =>
          have hs1 : 0 < s1.length := by
            cases s1 with
            | nil => exact absurd rfl h1
            | cons c cs => simp
          have hg : t2.length < s1.length + s2.length := by omega
          have hg2 : t2.length < (s1 ++ s2).length := by simp; omega
          simp [hp, hIH, hm, hg, hg2, combineM, more_starState, starLoop_some_eq]
      | done v =>
        simp [combineI] at hIH
        rw [starLoop_none_eq p acc a (s1 ++ s2), starLoop_none_eq p acc a s1]
        have hs1 : 0 < s1.length := by
          cases s1 with
          | nil => exact absurd rfl h1
          | cons c cs => simp
        by_cases hg : r1.length < s1.length
        · have hg2 : r1.length + s2.length < s1.length + s2.length := by omega
          have hg3 : (r1 ++ s2).length < (s1 ++ s2).length := by simp; omega
          by_cases hr1 : r1 = []
          · subst hr1
            rcases hsl2 : starLoop p none (a acc v) a s2 with ⟨o3, t3⟩
            simp [hp, hIH, hg, hg2, hg3, hs1, starLoop_nil, hsl2, combineM, more_starState]
          · have hIH2 := starLoop_append p none (a acc v) a r1 s2 hw (by intro si2 hsi; cases hsi) hr1
            rcases hsl : starLoop p none (a acc v) a r1 with ⟨o3, t3⟩
            rw [hsl] at hIH2
            cases o3 with
            | done w => simp [combineM] at hIH2; simp [hp, hIH, hg, hg2, hg3, hsl, hIH2, combineM]
            | div => simp [combineM] at hIH2; simp [hp, hIH, hg, hg2, hg3, hsl, hIH2, combineM]
            | cont st3 =>
              rcases hm3 : more st3 s2 with ⟨o4, t4⟩
              simp [combineM, hm3] at hIH2
              simp [hp, hIH, hg, hg2, hg3, hsl, hIH2, hm3, combineM]
        · have hg2 : ¬ (r1.length + s2.length < s1.length + s2.length) := by omega
          have hg3 : ¬ ((r1 ++ s2).length < (s1 ++ s2).length) := by simp; omega
          simp [hp, hIH, hg, hg2, hg3, combineM]
termination_by (psize p + isize inner, s1.length)
decreasing_by
  all_goals subst_vars
  all_goals (try simp [psize, ssize, isize])
  all_goals first
    | (apply Prod.Lex.left; first | omega | exact Nat.add_lt_add_left (Nat.lt_succ_of_le (ssize_pos _)) _)
    | (apply Prod.Lex.right; omega)

end


/-- Resuming any reachable suspended state on an empty fragment is a
no-op: the state is returned unchanged (this is why a final empty
fragment, as in the driver convention `["12","3",""]`, is harmless). -/
theorem more_nil (st : PState) (hw : wfS st = true) : more st [] = (.cont st, []) := by
  cases st with
  | anyState => simp [more]
  | emitState v => simp [wfS] at hw
  | discardState st1 =>
    have h1 := more_nil st1 (by simpa [wfS] using hw)
    simp [more, h1]
  | mapState f st1 =>
    have h1 := more_nil st1 (by simpa [wfS] using hw)
    simp [more, h1]
  | optState st1 =>
    have h1 := more_nil st1 (by simpa [wfS] using hw)
    simp [more, h1]
  | orLhs st1 =>
    have h1 := more_nil st1 (by simpa [wfS] using hw)
    simp [more, h1]
  | orRhs st1 =>
    have h1 := more_nil st1 (by simpa [wfS] using hw)
    simp [more, h1]
  | inLhs st1 q =>
    have hw2 : (wfS st1 = true ∧ wf q = true) ∧ hasEmpty q = true := by simpa [wfS] using hw
    have h1 := more_nil st1 hw2.1.1
    simp [more, h1]
  | inBetween v q => simp [more, init_nil]
  | inRhs v st1 =>
    have h1 := more_nil st1 (by simpa [wfS] using hw)
    simp [more, h1]
  | starState p inner acc a =>
    rw [more_starState]
    cases inner with
    | none => simp [starLoop_nil]
    | some si =>
      have hw2 : wf p = true ∧ wfS si = true := by simpa [wfS] using hw
      have h1 := more_nil si hw2.2
      rw [starLoop_some_eq, h1]
  | bufState st1 buf =>
    have h1 := more_nil st1 (by simpa [wfS] using hw)
    simp [more, h1]
termination_by ssize st
decreasing_by
  all_goals subst_vars
  all_goals simp [ssize, isize]
  all_goals omega

/-- An `OrElseState.Rhs` run is exactly the underlying right-hand run:
the committed side alone is resumed and finished. -/
theorem finishRun_orRhs (fs : List Str) : ∀ st, finishRun (.cont (.orRhs st)) fs = finishRun (.cont st) fs := by
  induction fs with
  | nil => intro st; simp [finishRun, done]
  | cons f fs ih =>
    intro st
    rcases hm : more st f with ⟨o, r⟩
    cases o with
    | done v => simp [finishRun, more, hm]
    | div => simp [finishRun, more, hm]
    | cont st2 => simp [finishRun, more, hm, ih]

/-- Feeding the remaining fragments one at a time equals feeding their
concatenation in one resume call. -/
theorem finishRun_join (fs : List Str) : ∀ st, wfS st = true → (∀ f ∈ fs, f ≠ []) → fs ≠ [] →
    finishRun (.cont st) fs = finishRun (more st fs.join).1 [] := by
  induction fs with
  | nil => intro st hw hfs hne; exact absurd rfl hne
  | cons f fs ih =>
    intro st hw hfs hne
    by_cases hfs2 : fs = []
    · subst hfs2
      simp [finishRun]
    · have hf : f ≠ [] := hfs f (by simp)
      have hIH := more_append st f fs.join hw hf
      rcases hm : more st f with ⟨o, r⟩
      rw [hm] at hIH
      cases o with
      | done v =>
        simp [combineM] at hIH
        simp [finishRun, List.join, hIH, hm]
      | div =>
        simp [combineM] at hIH
        simp [finishRun, List.join, hIH, hm]
      | cont st2 =>
        simp [combineM] at hIH
        have hw2 := more_cont st f hw st2 r hm
        have := ih st2 hw2.2 (by intro g hg; exact hfs g (by simp [hg])) hfs2
        simp [finishRun, List.join, hIH, hm, this]

/-- A complete drive over any nonempty-fragment split equals the drive
over the whole input as one fragment. -/
theorem drive_join (p : Parser) (frags : List Str) (hw : wf p = true)
    (hfs : ∀ f ∈ frags, f ≠ []) :
    drive p frags = drive p [frags.join] := by
  cases frags with
  | nil => simp [drive]
  | cons f fs =>
    have hf : f ≠ [] := hfs f (by simp)
    by_cases hfs2 : fs = []
    · subst hfs2
      simp [drive]
    · have hIH := init_append p f fs.join hw hf
      rcases hp : init p f with ⟨o, r⟩
      rw [hp] at hIH
      cases o with
      | none =>
        simp [combineI] at hIH
        simp [drive, List.join, hp, hIH]
      | some res =>
        cases res with
        | done v =>
          simp [combineI] at hIH
          simp [drive, List.join, hp, hIH, finishRun]
        | div =>
          simp [combineI] at hIH
          simp [drive, List.join, hp, hIH, finishRun]
        | cont st =>
          rcases hm : more st fs.join with ⟨o2, t2⟩
          simp [combineI, hm] at hIH
          have hw2 := init_cont p f hw st r hp
          have hfin := finishRun_join fs st hw2.2 (by intro g hg; exact hfs g (by simp [hg])) hfs2
          rw [hm] at hfin
          simp [drive, List.join, hp, hIH, hfin]


/-- C1: For every parser built from these combinators and every fixed
total input, the final Output of a complete drive (begin, then resume
once per fragment, then finish/onEmpty at end of input) is identical
regardless of how that total input is split into fragments fed across
the successive resume calls. -/
theorem parsell_c1_chunk_invariance (p : Parser) (frags1 frags2 : List Str)
    (hw : wf p = true)
    (h1 : ∀ f ∈ frags1, f ≠ []) (h2 : ∀ f ∈ frags2, f ≠ [])
    (hj : frags1.join = frags2.join) :
    drive p frags1 = drive p frags2 ∧ driveC p frags1 = driveC p frags2 := by
  have e1 := drive_join p frags1 hw h1
  have e2 := drive_join p frags2 hw h2
  have e3 : drive p frags1 = drive p frags2 := by rw [e1, e2, hj]
  exact ⟨e3, by simp [driveC, e3]⟩

theorem parsell_c1_chunk_invariance_witness :
    drive (.andThen (.character (fun c => c == 'a')) .anyCharacter) [['a', 'b']]
      = drive (.andThen (.character (fun c => c == 'a')) .anyCharacter) [['a'], ['b']]
    ∧ driveC (.andThen (.character (fun c => c == 'a')) .anyCharacter) [['a', 'b']]
      = driveC (.andThen (.character (fun c => c == 'a')) .anyCharacter) [['a'], ['b']] :=
  parsell_c1_chunk_invariance (.andThen (.character (fun c => c == 'a')) .anyCharacter)
    [['a', 'b']] [['a'], ['b']] (by simp [wf, hasEmpty]) (by simp) (by simp) (by simp)

/-- C2: For every pair of parsers `p` (Uncommitted) and `q` (Committed),
and every input `S = S1 ++ S2` where `p` matches exactly the prefix `S1`
and `q` matches `S2`, driving `AndThen(p,q)` over `S` yields `Done` of
the pair of both results, for every placement of fragment boundaries
relative to the `S1`/`S2` split. -/
theorem parsell_c2_andThen_sequencing (p q : Parser) (pv qv : Val) (sOne sTwo : Str)
    (frags : List Str) (hwp : wf p = true) (hwq : wf q = true) (hcq : hasEmpty q = true)
    (hp : init p (sOne ++ sTwo) = (some (.done pv), sTwo))
    (hq : driveC q [sTwo] = .out qv)
    (hfr : ∀ f ∈ frags, f ≠ []) (hj : frags.join = sOne ++ sTwo) :
    drive (.andThen p q) frags = .out (.pair pv qv) := by
  have hwa : wf (.andThen p q) = true := by simp [wf, hwp, hwq, hcq]
  rw [drive_join (.andThen p q) frags hwa hfr, hj]
  by_cases hs2 : sTwo = []
  · subst hs2
    by_cases hs1 : sOne = []
    · subst hs1
      simp [init_nil] at hp
    · have hqe : qv = empty q := by
        simp [driveC, drive, init_nil] at hq
        exact hq.symm
      simp at hp
      simp [drive, init, hp, init_nil, finishRun, done, hqe]
  · rcases hq2 : init q sTwo with ⟨oq, rq⟩
    cases oq with
    | none =>
      have : sTwo = [] := committed_decline_nil q sTwo rq hcq hq2
      exact absurd this hs2
    | some resq =>
      cases resq with
      | done w =>
        have hqw : w = qv := by
          simp [driveC, drive, hq2, finishRun] at hq
          exact hq
        simp [drive, init, hp, hq2, finishRun, hqw]
      | div =>
        simp [driveC, drive, hq2, finishRun] at hq
      | cont stq =>
        have hqd : done stq = qv := by
          simp [driveC, drive, hq2, finishRun] at hq
          exact hq
        simp [drive, init, hp, hq2, finishRun, done, hqd]

theorem parsell_c2_andThen_sequencing_witness :
    drive (.andThen (.character (fun c => c == '5')) .anyCharacter) [['5'], ['x']]
      = .out (.pair (.char '5') (.vopt (some (.char 'x')))) :=
  parsell_c2_andThen_sequencing (.character (fun c => c == '5')) .anyCharacter
    (.char '5') (.vopt (some (.char 'x'))) ['5'] ['x'] [['5'], ['x']]
    (by simp [wf]) (by simp [wf]) (by simp [hasEmpty])
    (by simp [init]) (by simp [driveC, drive, init, finishRun]) (by simp) (by simp)

/-- C3: Whenever `p.begin` declines on the input, `OrElse(p,q)` behaves
exactly as `q` on that same input; and once either side has returned a
result the state remembers which side committed and only that side is
ever resumed — the `Lhs`/`Rhs` states delegate every resume and finish
to the committed side alone (`Lhs` does not even store `q`). -/
theorem parsell_c3_orElse_choice (p q : Parser) (frags : List Str)
    (hdecl : init p (frags.headD []) = (none, frags.headD [])) :
    drive (.orElse p q) frags = drive q frags
    ∧ (∀ st f, more (.orLhs st) f = (match more st f with
        | (.done v, r) => (.done v, r)
        | (.cont st2, r) => (.cont (.orLhs st2), r)
        | (.div, r) => (.div, r)))
    ∧ (∀ st, done (.orLhs st) = done st)
    ∧ (∀ st f, more (.orRhs st) f = (match more st f with
        | (.done v, r) => (.done v, r)
        | (.cont st2, r) => (.cont (.orRhs st2), r)
        | (.div, r) => (.div, r)))
    ∧ (∀ st, done (.orRhs st) = done st) := by
  refine ⟨?_, ?_, ?_, ?_, ?_⟩
  · cases frags with
    | nil =>
      simp only [List.headD] at hdecl
      rcases hq : init q [] with ⟨oq, rq⟩
      cases oq with
      | none => simp [drive, init, hdecl, hq]
      | some resq =>
        cases resq with
        | done w => simp [drive, init, hdecl, hq]
        | div => simp [drive, init, hdecl, hq]
        | cont st => simp [drive, init, hdecl, hq, finishRun_orRhs]
    | cons f fs =>
      simp only [List.headD] at hdecl
      rcases hq : init q f with ⟨oq, rq⟩
      cases oq with
      | none => simp [drive, init, hdecl, hq]
      | some resq =>
        cases resq with
        | done w => simp [drive, init, hdecl, hq]
        | div => simp [drive, init, hdecl, hq]
        | cont st => simp [drive, init, hdecl, hq, finishRun_orRhs]
  · intro st f
    rcases hm : more st f with ⟨o, r⟩
    cases o <;> simp [more, hm]
  · intro st; simp [done]
  · intro st f
    rcases hm : more st f with ⟨o, r⟩
    cases o <;> simp [more, hm]
  · intro st; simp [done]

theorem parsell_c3_orElse_choice_witness :
    drive (.orElse (.character (fun c => c == 'a')) .anyCharacter) [['x']]
      = drive (.anyCharacter) [['x']]
    ∧ (∀ st f, more (.orLhs st) f = (match more st f with
        | (.done v, r) => (.done v, r)
        | (.cont st2, r) => (.cont (.orLhs st2), r)
        | (.div, r) => (.div, r)))
    ∧ (∀ st, done (.orLhs st) = done st)
    ∧ (∀ st f, more (.orRhs st) f = (match more st f with
        | (.done v, r) => (.done v, r)
        | (.cont st2, r) => (.cont (.orRhs st2), r)
        | (.div, r) => (.div, r)))
    ∧ (∀ st, done (.orRhs st) = done st) :=
  parsell_c3_orElse_choice (.character (fun c => c == 'a')) .anyCharacter [['x']]
    (by simp [init])

/-- C4: `Star(p, factory)` on empty input yields the accumulator's zero
value (a freshly built accumulator, via `onEmpty`) and never declines at
the committed level, while `Plus(p, factory).begin` declines outright on
any input on which `p.begin` declines. -/
theorem parsell_c4_star_plus_laws (p : Parser) (z : Val) (a : Val → Val → Val) (s : Str)
    (hdecl : init p s = (none, s)) :
    driveC (.star p z a) [] = .out z
    ∧ driveC (.star p z a) [[]] = .out z
    ∧ empty (.star p z a) = z
    ∧ hasEmpty (.star p z a) = true
    ∧ init (.plus p z a) s = (none, s) := by
  refine ⟨?_, ?_, rfl, rfl, ?_⟩
  · simp [driveC, drive, init, empty]
  · simp [driveC, drive, init, empty]
  · simp [init, hdecl]

theorem parsell_c4_star_plus_laws_witness :
    driveC (.star (.character (fun c => c.isDigit)) (.vlist []) (fun acc v =>
        match acc with | .vlist l => .vlist (l ++ [v]) | x => x)) [] = .out (.vlist [])
    ∧ driveC (.star (.character (fun c => c.isDigit)) (.vlist []) (fun acc v =>
        match acc with | .vlist l => .vlist (l ++ [v]) | x => x)) [[]] = .out (.vlist [])
    ∧ empty (.star (.character (fun c => c.isDigit)) (.vlist []) (fun acc v =>
        match acc with | .vlist l => .vlist (l ++ [v]) | x => x)) = .vlist []
    ∧ hasEmpty (.star (.character (fun c => c.isDigit)) (.vlist []) (fun acc v =>
        match acc with | .vlist l => .vlist (l ++ [v]) | x => x)) = true
    ∧ init (.plus (.character (fun c => c.isDigit)) (.vlist []) (fun acc v =>
        match acc with | .vlist l => .vlist (l ++ [v]) | x => x)) ['x'] = (none, ['x']) :=
  parsell_c4_star_plus_laws (.character (fun c => c.isDigit)) (.vlist []) _ ['x']
    (by simp [init])

/-- C5: For every suspended `AndThen(p,q)` state, `finish()` returns: in
`InLhs`, the pair of `p`'s finish value and `q.onEmpty()`; in
`InBetween`, the held `p` value paired with `q.onEmpty()`; in `InRhs`,
the held `p` value paired with the finish of `q`'s in-progress state. -/
theorem parsell_c5_andThen_finish (st : PState) (q : Parser) (v : Val) :
    done (.inLhs st q) = .pair (done st) (empty q)
    ∧ done (.inBetween v q) = .pair v (empty q)
    ∧ done (.inRhs v st) = .pair v (done st) :=
  ⟨rfl, rfl, rfl⟩

/-- C6: Whenever the inner parser of the `Star`/`Plus` driving loop
declines at the current position, the engine concludes: if the stream is
currently empty it suspends (returns `Continue`, since more input may
extend the repetition); otherwise it finishes and yields `Done` carrying
the accumulator. -/
theorem parsell_c6_star_decline (p : Parser) (acc : Val) (a : Val → Val → Val) (s : Str)
    (hdecl : init p s = (none, s)) :
    more (.starState p none acc a) s =
      if s.isEmpty then (.cont (.starState p none acc a), s) else (.done acc, s) := by
  rw [more_starState, starLoop_none_eq, hdecl]

theorem parsell_c6_star_decline_witness :
    more (.starState (.character (fun c => c.isDigit)) none (.vlist [.char '7'])
        (fun acc v => match acc with | .vlist l => .vlist (l ++ [v]) | x => x)) []
      = (.cont (.starState (.character (fun c => c.isDigit)) none (.vlist [.char '7'])
        (fun acc v => match acc with | .vlist l => .vlist (l ++ [v]) | x => x)), [])
    ∧ more (.starState (.character (fun c => c.isDigit)) none (.vlist [.char '7'])
        (fun acc v => match acc with | .vlist l => .vlist (l ++ [v]) | x => x)) ['x']
      = (.done (.vlist [.char '7']), ['x']) := by
  constructor
  · have h := parsell_c6_star_decline (.character (fun c => c.isDigit)) (.vlist [.char '7'])
      (fun acc v => match acc with | .vlist l => .vlist (l ++ [v]) | x => x) []
      (by simp [init])
    simpa using h
  · have h := parsell_c6_star_decline (.character (fun c => c.isDigit)) (.vlist [.char '7'])
      (fun acc v => match acc with | .vlist l => .vlist (l ++ [v]) | x => x) ['x']
      (by simp [init])
    simpa using h

/-- C7: For every Uncommitted parser `p`: if `p.begin` declines and the
stream is non-empty, `Opt(p).begin` yields `Done(absent)` immediately,
consuming nothing; if the stream is currently empty, `Opt(p).begin`
itself returns `None`, deferring the decision to an enclosing Committed
fallback's `onEmpty`; if `p` matches, the result is wrapped as present. -/
theorem parsell_c7_opt_begin (p : Parser) (s : Str) (v : Val) (r : Str) :
    (init p s = (none, s) → s ≠ [] → init (.opt p) s = (some (.done (.vopt none)), s))
    ∧ (init p [] = (none, []) → init (.opt p) [] = (none, []))
    ∧ (init p s = (some (.done v), r) → init (.opt p) s = (some (.done (.vopt (some v))), r)) := by
  refine ⟨?_, ?_, ?_⟩
  · intro h hne
    simp [init, h, isEmpty_false_of_ne hne]
  · intro h
    simp [init, h]
  · intro h
    simp [init, h]

theorem parsell_c7_opt_begin_witness :
    init (.opt (.character (fun c => c.isDigit))) ['x'] = (some (.done (.vopt none)), ['x'])
    ∧ init (.opt (.character (fun c => c.isDigit))) [] = (none, [])
    ∧ init (.opt (.character (fun c => c.isDigit))) ['5']
        = (some (.done (.vopt (some (.char '5')))), []) :=
  ⟨(parsell_c7_opt_begin (.character (fun c => c.isDigit)) ['x'] .unit []).1
      (by simp [init]) (by simp),
   (parsell_c7_opt_begin (.character (fun c => c.isDigit)) [] .unit []).2.1
      (by simp [init]),
   (parsell_c7_opt_begin (.character (fun c => c.isDigit)) ['5'] (.char '5') []).2.2
      (by simp [init])⟩


/-- C8 counterexample: on an exhausted stream — in particular a merely
exhausted fragment, since `init` sees only the stream — `AnyCharacter`'s
`begin` (`Uncommitted::init`, impls.rs lines 1242-1249) returns `None`
(declines); it does not suspend with `Continue` as the claim states. -/
theorem parsell_c8_counterexample : init Parser.anyCharacter [] = (none, []) := by
  simp [init]

/-- C8 (amended): `AnyCharacter.begin` declines (returns `None`) exactly
when the current stream is empty — whether or not more fragments will
come — and never returns `Continue`; the suspension on a merely
exhausted fragment is provided by the `Stateful` impl instead: resume
(`more`) returns `Continue` on an empty stream and `Done` on a token,
and finish (`done`) yields `None`. -/
theorem parsell_c8_anyCharacter_begin (s : Str) :
    (s = [] → init .anyCharacter s = (none, []))
    ∧ (∀ c cs, s = c :: cs → init .anyCharacter s = (some (.done (.vopt (some (.char c)))), cs))
    ∧ (s = [] → more .anyState s = (.cont .anyState, []))
    ∧ (∀ c cs, s = c :: cs → more .anyState s = (.done (.vopt (some (.char c))), cs))
    ∧ done .anyState = .vopt none := by
  refine ⟨?_, ?_, ?_, ?_, rfl⟩
  · intro h; subst h; simp [init]
  · intro c cs h; subst h; simp [init]
  · intro h; subst h; simp [more]
  · intro c cs h; subst h; simp [more]

theorem parsell_c8_anyCharacter_begin_witness :
    init .anyCharacter ([] : Str) = (none, [])
    ∧ init .anyCharacter ['x'] = (some (.done (.vopt (some (.char 'x')))), [])
    ∧ more .anyState ([] : Str) = (.cont .anyState, [])
    ∧ more .anyState ['x'] = (.done (.vopt (some (.char 'x'))), []) :=
  ⟨(parsell_c8_anyCharacter_begin []).1 rfl,
   (parsell_c8_anyCharacter_begin ['x']).2.1 'x' [] rfl,
   (parsell_c8_anyCharacter_begin []).2.2.1 rfl,
   (parsell_c8_anyCharacter_begin ['x']).2.2.2.1 'x' [] rfl⟩

/-- Tagged outcome of the `Buffered` wrapper: `done owned content`
distinguishes the `Cow::Borrowed` (`owned = false`) and `Cow::Owned`
(`owned = true`) paths, which compare equal as `Cow` values when the
content agrees. -/
inductive BRes : Type where
  | div
  | done (owned : Bool) (content : List Char)
  | cont (s : PState) (buf : List Char)

/-- Model of `Buffered::init` with the borrow/own tag kept: completion within the
first fragment borrows a slice of it (`Borrowed`, zero copy); a
suspension copies the whole remaining fragment into an owned buffer. -/
def bufInit (p : Parser) (s : Str) : Option BRes × Str :=
  match init p s with
  | (none, r) => (none, r)
  | (some (.done _), r) => (some (.done false (s.take (s.length - r.length))), r)
  | (some (.cont st), r) => (some (.cont st s), r)
  | (some .div, r) => (some .div, r)

/-- Model of `BufferedState::more` with the tag kept: every completion after a
suspension is `Owned`, and on a further suspension the whole fragment is
appended to the owned buffer. -/
def bufMore (st : PState) (buf : List Char) (s : Str) : BRes × Str :=
  match more st s with
  | (.done _, r) => (.done true (buf ++ s.take (s.length - r.length)), r)
  | (.cont st2, r) => (.cont st2 (buf ++ s), r)
  | (.div, r) => (.div, r)

/-- Tagged drive outcome for `Buffered`. -/
inductive BOut : Type where
  | declined
  | diverged
  | out (owned : Bool) (content : List Char)

/-- Drive the remaining fragments of a tagged `Buffered` run;
`BufferedState::done` yields `Owned(buffer)`. -/
def bufFinishRun : BRes → List Str → BOut
  | .div, _ => .diverged
  | .done b c, _ => .out b c
  | .cont _ buf, [] => .out true buf
  | .cont st buf, f :: fs => bufFinishRun (bufMore st buf f).1 fs

/-- A complete tagged drive of `Buffered(p)`. -/
def driveB (p : Parser) (frags : List Str) : BOut :=
  match bufInit p (frags.headD []) with
  | (none, _) => .declined
  | (some r, _) => bufFinishRun r frags.tail

/-- Erase the borrow/own tag, keeping the content (`Cow` equality). -/
def untag : BOut → DOut
  | .declined => .declined
  | .diverged => .diverged
  | .out _ c => .out (.str c)

/-- The tagged `Buffered` run agrees with the untagged embedding. -/
theorem untag_bufFinishRun (fs : List Str) : ∀ st buf,
    untag (bufFinishRun (.cont st buf) fs) = finishRun (.cont (.bufState st buf)) fs := by
  induction fs with
  | nil => intro st buf; simp [bufFinishRun, finishRun, untag, done]
  | cons f fs ih =>
    intro st buf
    rcases hm : more st f with ⟨o, r⟩
    cases o with
    | done v => simp [bufFinishRun, finishRun, bufMore, more, hm, untag]
    | div => simp [bufFinishRun, finishRun, bufMore, more, hm, untag]
    | cont st2 => simp [bufFinishRun, finishRun, bufMore, more, hm, ih]

/-- A complete tagged `Buffered` drive, with the tag erased, is exactly
the drive of the embedded `Buffered` parser. -/
theorem untag_driveB (p : Parser) (frags : List Str) :
    untag (driveB p frags) = drive (.buffered p) frags := by
  cases frags with
  | nil =>
    rcases hp : init p [] with ⟨o, r⟩
    cases o with
    | none => simp [driveB, drive, bufInit, init, hp, untag]
    | some res =>
      cases res with
      | done v => simp [driveB, drive, bufInit, init, hp, untag, bufFinishRun, finishRun]
      | div => simp [driveB, drive, bufInit, init, hp, untag, bufFinishRun, finishRun]
      | cont st => simp [driveB, drive, bufInit, init, hp, untag_bufFinishRun]
  | cons f fs =>
    rcases hp : init p f with ⟨o, r⟩
    cases o with
    | none => simp [driveB, drive, bufInit, init, hp, untag]
    | some res =>
      cases res with
      | done v => simp [driveB, drive, bufInit, init, hp, untag, bufFinishRun, finishRun]
      | div => simp [driveB, drive, bufInit, init, hp, untag, bufFinishRun, finishRun]
      | cont st => simp [driveB, drive, bufInit, init, hp, untag_bufFinishRun]

/-- C9: For every inner parser `p` and every fragmentation of a string,
`Buffered(p)` yields content equal to the substring `p` would consume
given the whole string at once; while the match lies wholly within one
fragment the result borrows a slice of that fragment (zero copy), and
the instant the match's span straddles a fragment boundary the result
becomes an owned buffer incrementally appended on each subsequent
fragment. -/
theorem parsell_c9_buffered (p : Parser) (frags : List Str)
    (hw : wf p = true) (hfr : ∀ f ∈ frags, f ≠ []) :
    untag (driveB p frags) = untag (driveB p [frags.join])
    ∧ (∀ s b c r, bufInit p s = (some (.done b c), r) → b = false)
    ∧ (∀ st buf s b c r, bufMore st buf s = (.done b c, r) → b = true)
    ∧ (∀ st buf s st2 b2 r, bufMore st buf s = (.cont st2 b2, r) → b2 = buf ++ s)
    ∧ (∀ st buf, bufFinishRun (.cont st buf) [] = .out true buf) := by
  refine ⟨?_, ?_, ?_, ?_, ?_⟩
  · rw [untag_driveB, untag_driveB]
    exact drive_join (.buffered p) frags (by simpa [wf] using hw) hfr
  · intro s b c r h
    rcases h2 : init p s with ⟨o, r2⟩
    cases o with
    | none => simp [bufInit, h2] at h
    | some res =>
      cases res with
      | done v =>
        simp [bufInit, h2] at h
        first
          | exact h.1.1
          | exact h.1.1.symm
          | exact h.1.2
          | exact h.1.2.symm
      | div => simp [bufInit, h2] at h
      | cont st => simp [bufInit, h2] at h
  · intro st buf s b c r h
    rcases h2 : more st s with ⟨o, r2⟩
    cases o with
    | done v =>
      simp [bufMore, h2] at h
      first
        | exact h.1.1
        | exact h.1.1.symm
        | exact h.1.2
        | exact h.1.2.symm
    | div => simp [bufMore, h2] at h
    | cont st2 => simp [bufMore, h2] at h
  · intro st buf s st2 b2 r h
    rcases h2 : more st s with ⟨o, r2⟩
    cases o with
    | done v => simp [bufMore, h2] at h
    | div => simp [bufMore, h2] at h
    | cont st3 =>
      simp [bufMore, h2] at h
      first
        | exact h.1.1
        | exact h.1.1.symm
        | exact h.1.2
        | exact h.1.2.symm
  · intro st buf; simp [bufFinishRun]

theorem parsell_c9_buffered_witness :
    untag (driveB (.andThen (.character (fun c => c == 'a')) .anyCharacter) [['a'], ['b']])
      = untag (driveB (.andThen (.character (fun c => c == 'a')) .anyCharacter) [['a', 'b']])
    ∧ (∀ st buf, bufFinishRun (.cont st buf) [] = .out true buf) := by
  have h := parsell_c9_buffered (.andThen (.character (fun c => c == 'a')) .anyCharacter)
    [['a'], ['b']] (by simp [wf, hasEmpty]) (by simp)
  refine ⟨?_, h.2.2.2.2⟩
  have h1 := h.1
  simp only [List.join] at h1
  simpa using h1

/-- C10: Once `Opt(p).begin` or resume has returned `Continue` (`p` is
mid-parse, the state is `Opt` of `p`'s state), the terminal `finish()`
on that state always yields a present value — `Some` of `p`'s finish
result — never absent; resume likewise wraps a finished value as
present, so the absent outcome can only arise from `begin` (on a
non-empty stream where `p` declines) or from `onEmpty`. -/
theorem parsell_c10_opt_finish (p : Parser) (st : PState) (s : Str) :
    done (.optState st) = .vopt (some (done st))
    ∧ more (.optState st) s = (match more st s with
        | (.done v, r) => (.done (.vopt (some v)), r)
        | (.cont st2, r) => (.cont (.optState st2), r)
        | (.div, r) => (.div, r))
    ∧ (∀ st2 r, init (.opt p) s = (some (.cont st2), r) → ∃ st3, st2 = .optState st3) := by
  refine ⟨rfl, ?_, ?_⟩
  · rcases hm : more st s with ⟨o, r⟩
    cases o <;> simp [more, hm]
  · intro st2 r h
    rcases h2 : init p s with ⟨o, r2⟩
    cases o with
    | none => by_cases he : r2.isEmpty <;> simp [init, h2, he] at h
    | some res =>
      cases res with
      | done v => simp [init, h2] at h
      | div => simp [init, h2] at h
      | cont st3 =>
        simp [init, h2] at h
        exact ⟨st3, h.1.symm⟩

theorem parsell_c10_opt_finish_witness :
    done (.optState .anyState) = .vopt (some (done .anyState))
    ∧ (∃ st3, PState.optState (.inBetween (.char 'a') .anyCharacter) = .optState st3) :=
  ⟨(parsell_c10_opt_finish .anyCharacter .anyState []).1,
   (parsell_c10_opt_finish (.andThen (.character (fun c => c == 'a')) .anyCharacter)
      .anyState ['a']).2.2 (.optState (.inBetween (.char 'a') .anyCharacter)) []
      (by simp [init])⟩


/-- Scenario from the spec: `Character(isDigit)` fed `["1"]` yields
`Done('1')`; fed `["a"]` it declines with nothing consumed. -/
theorem scenario_character :
    init (.character (fun c => c.isDigit)) ['1'] = (some (.done (.char '1')), [])
    ∧ init (.character (fun c => c.isDigit)) ['a'] = (none, ['a']) := by
  exact ⟨by simp [init], by simp [init]⟩

/-- Scenario from the spec: `Star(Character(isDigit), toSequence)` fed
`["12","3",""]` (final empty fragment at end) yields `['1','2','3']`. -/
theorem scenario_star_digits :
    driveC (.star (.character (fun c => c.isDigit)) (.vlist [])
        (fun acc v => match acc with | .vlist l => .vlist (l ++ [v]) | x => x))
      [['1', '2'], ['3'], []]
      = .out (.vlist [.char '1', .char '2', .char '3']) := by
  simp [driveC, drive, init, finishRun, more, starLoop, done]

end Parsell
